import Mathlib

/-!
# Default environment variables: log windowing, parsing and checks

A shallow embedding of the helper code of `apps/default_environment_variables.go`:
`filterEnvironmentLines`, `extractEnvironment`, `assertPresent`,
`assertJsonParseable` and the task-log pattern filter of the second scenario.

Go strings are modelled as lists of characters, Go slices as lists, a Go
`map[string]string` as a finite-support function from keys to optional values,
and a run-time fault (index or slice bounds out of range) as `none`.
Every separator, sentinel and pattern character of the source is ASCII, so searching
and splitting by character agrees with Go's byte-wise operations on UTF-8 text.
-/

namespace Apps

/-- A Go string. -/
abbrev Str := List Char

/-! ## Library functions used by the source (`strings` package) -/

/-- Go `strings.Contains(s, substr)`: `substr` occurs somewhere in `s`. -/
def contains : Str → Str → Bool
  | [], sub => sub.isEmpty
  | c :: s, sub => sub.isPrefixOf (c :: s) || contains s sub

/-- Go `strings.Cut(s, sep)`, the step `m := Index(s, sep)`, `s[:m]`, `s[m+len(sep):]`
of `genSplit`: the text before and after the first occurrence of `sep`, if any. -/
def cut : Str → Str → Option (Str × Str)
  | [], sep => if sep.isEmpty then some ([], []) else none
  | c :: s, sep =>
    if sep.isPrefixOf (c :: s) then some ([], (c :: s).drop sep.length)
    else (cut s sep).map (fun p => (c :: p.1, p.2))

/-- Go `strings.SplitN(s, sep, n)` for a non-empty `sep` and `n ≥ 0`: at most `n`
substrings, the last one being the unsplit remainder (`n = 0` gives no substring). -/
def splitN (s sep : Str) : Nat → List Str
  | 0 => []
  | 1 => [s]
  | n + 2 =>
    match cut s sep with
    | none => [s]
    | some (a, b) => a :: splitN b sep (n + 1)

/-- Go slice expression `xs[lo:hi]` (capacity taken equal to the length): faults unless
`0 ≤ lo ≤ hi ≤ len(xs)`. -/
def slice {α : Type} (xs : List α) (lo hi : Int) : Option (List α) :=
  if 0 ≤ lo ∧ lo ≤ hi ∧ hi ≤ (xs.length : Int) then
    some ((xs.take hi.toNat).drop lo.toNat)
  else none

/-! ## `filterEnvironmentLines` -/

/-- The start sentinel `"START_ENV_CMD"`. -/
def startMarker : Str := "START_ENV_CMD".toList

/-- The end sentinel `"END_ENV_CMD"`. -/
def endMarker : Str := "END_ENV_CMD".toList

/-- The `for i := range lines` loop of `filterEnvironmentLines`, run on the lines from
index `i` on with the current `startIdx`; returns the final `(startIdx, endIdx)`.
A line containing the start sentinel sets `startIdx` and `continue`s; otherwise, once
`startIdx > -1`, a line containing the end sentinel sets `endIdx` and `break`s. -/
def filterLoop : List Str → Nat → Int → Int × Int
  | [], _, startIdx => (startIdx, -1)
  | line :: rest, i, startIdx =>
    if contains line startMarker then filterLoop rest (i + 1) (i : Int)
    else if decide (startIdx > -1) && contains line endMarker then (startIdx, (i : Int))
    else filterLoop rest (i + 1) startIdx

/-- Source `filterEnvironmentLines`: `lines` itself when `startIdx == -1`, otherwise
`lines[startIdx + 1 : endIdx]`, which faults when `endIdx` is still `-1`. -/
def filterEnvironmentLines (lines : List Str) : Option (List Str) :=
  let r := filterLoop lines 0 (-1)
  if r.1 = -1 then some lines else slice lines (r.1 + 1) r.2

/-! ## `extractEnvironment` -/

/-- A Go `map[string]string`. -/
abbrev Env := Str → Option Str

/-- The empty map `map[string]string{}`. -/
def Env.empty : Env := fun _ => none

/-- The map assignment `env[k] = v`. -/
def Env.set (env : Env) (k v : Str) : Env := fun k' => if k' = k then some v else env k'

/-- The loop of `extractEnvironment`: `output := strings.SplitN(line, " ", 4)[3]`,
`fields := strings.SplitN(output, "=", 2)`, `env[fields[0]] = fields[1]`; an index out of
range aborts the whole function. -/
def extractLoop : List Str → Env → Option Env
  | [], env => some env
  | line :: rest, env =>
    match (splitN line " ".toList 4)[3]? with
    | none => none
    | some output =>
      let fields := splitN output "=".toList 2
      match fields[0]?, fields[1]? with
      | some k, some v => extractLoop rest (env.set k v)
      | _, _ => none

/-- Source `extractEnvironment`. -/
def extractEnvironment (lines : List Str) : Option Env :=
  extractLoop lines Env.empty

/-- The line `f1 + " " + f2 + " " + f3 + " " + k + "=" + v`. -/
def fourFieldLine (f1 f2 f3 k v : Str) : Str :=
  f1 ++ ' ' :: (f2 ++ ' ' :: (f3 ++ ' ' :: (k ++ '=' :: v)))


/-- The window as claim C1 words it: the lines strictly between the first line containing
the start sentinel and the first line after it containing the end sentinel. -/
def windowAfterFirstStart (lines : List Str) : List Str :=
  ((lines.dropWhile (fun l => !contains l startMarker)).tail).takeWhile
    (fun l => !contains l endMarker)

/-- The example input of claim C1. -/
def restartExample : List Str :=
  ["x START_ENV_CMD".toList, "a".toList, "y START_ENV_CMD".toList, "b".toList,
    "z END_ENV_CMD".toList]

/-- The body of one iteration of the loop of `extractEnvironment`, as a function of the
line: the pair `(fields[0], fields[1])`, or `none` when an index is out of range. -/
def lineEntry (line : Str) : Option (Str × Str) :=
  match (splitN line " ".toList 4)[3]? with
  | none => none
  | some output =>
    match (splitN output "=".toList 2)[0]?, (splitN output "=".toList 2)[1]? with
    | some k, some v => some (k, v)
    | _, _ => none

/-- The parts of a line of the four-field shape `f1 f2 f3 key=value`. -/
structure EnvLine where
  f1 : Str
  f2 : Str
  f3 : Str
  key : Str
  value : Str
deriving DecidableEq

/-- The text of the line: `f1 + " " + f2 + " " + f3 + " " + key + "=" + value`. -/
def EnvLine.text (r : EnvLine) : Str := fourFieldLine r.f1 r.f2 r.f3 r.key r.value

/-- The shape conditions of claim C4: no space in the three prefix fields, no `=` in the
key (the value is unconstrained). -/
def EnvLine.WellFormed (r : EnvLine) : Prop :=
  ' ' ∉ r.f1 ∧ ' ' ∉ r.f2 ∧ ' ' ∉ r.f3 ∧ '=' ∉ r.key

instance (r : EnvLine) : Decidable r.WellFormed := by
  unfold EnvLine.WellFormed
  exact inferInstance

/-! ## The checks `assertPresent` and `assertJsonParseable` -/

/-- The result of a function made of Gomega expectations: every expectation held, or the
expectation number `expectation` (counted from 0 inside the loop body) failed in loop
iteration `iteration`, where the fail handler aborts the function. -/
inductive Outcome where
  | passed
  | failed (iteration : Nat) (expectation : Nat)
deriving DecidableEq

/-- The loop of `assertPresent`, from iteration `i` on: `_, ok := env[varName]`,
`Expect(ok).To(BeTrue())`. -/
def assertPresentLoop (env : Env) : List Str → Nat → Outcome
  | [], _ => Outcome.passed
  | varName :: rest, i =>
    match env varName with
    | some _ => assertPresentLoop env rest (i + 1)
    | none => Outcome.failed i 0

/-- Source `assertPresent`; the map it was given is returned next to the outcome, as the
function only reads it. -/
def assertPresent (env : Env) (varNames : List Str) : Env × Outcome :=
  (env, assertPresentLoop env varNames 0)

/-! ### JSON decoding (`encoding/json`), as far as `assertJsonParseable` observes it

`json.Unmarshal([]byte(value), &vcapStruct)` with `vcapStruct` a
`map[string]interface{}` returns a nil error exactly when `value` is, between optional
whitespace, the literal `null` or a syntactically valid JSON object that is nested at most
`maxNestingDepth` deep and whose numbers `strconv.ParseFloat` reads without a range
error. A top-level array, string, number or boolean is a type error. -/

/-- JSON insignificant whitespace. -/
def isJsonSpace (c : Char) : Bool := c == ' ' || c == '\t' || c == '\r' || c == '\n'

/-- Drop leading JSON whitespace. -/
def skipSpace : Str → Str
  | [] => []
  | c :: s => if isJsonSpace c then skipSpace s else c :: s

/-- A hexadecimal digit, as in a `\u` escape. -/
def isHexDigit (c : Char) : Bool :=
  ('0' ≤ c && c ≤ '9') || ('a' ≤ c && c ≤ 'f') || ('A' ≤ c && c ≤ 'F')

/-- A character that may follow a backslash in a JSON string, `\u` apart. -/
def isEscapeChar (c : Char) : Bool :=
  c == '"' || c == '\\' || c == '/' || c == 'b' || c == 'f' || c == 'n' || c == 'r' || c == 't'

/-- Scan a JSON string after its opening quote; the text after the closing quote. -/
def scanString : Str → Option Str
  | [] => none
  | c :: r =>
    if c == '"' then some r
    else if c == '\\' then
      match r with
      | [] => none
      | e :: r2 =>
        if e == 'u' then
          match r2 with
          | h1 :: h2 :: h3 :: h4 :: r3 =>
            if isHexDigit h1 && isHexDigit h2 && isHexDigit h3 && isHexDigit h4 then
              scanString r3
            else none
          | _ => none
        else if isEscapeChar e then scanString r2
        else none
    else if c.toNat < 32 then none
    else scanString r

/-- A decimal digit. -/
def isDecimalDigit (c : Char) : Bool := '0' ≤ c && c ≤ '9'

/-- The leading decimal digits of a text, and the rest. -/
def takeDigits : Str → Str × Str
  | [] => ([], [])
  | c :: s =>
    if isDecimalDigit c then (c :: (takeDigits s).1, (takeDigits s).2) else ([], c :: s)

/-- The number written by a string of decimal digits. -/
def digitsValue (ds : Str) : Nat := ds.foldl (fun n c => 10 * n + (c.toNat - 48)) 0

/-- The exponent `strconv.ParseFloat` reads from a string of exponent digits: a digit is
taken into account only while the value so far is below 10000. -/
def exponentValue (es : Str) : Nat :=
  es.foldl (fun e c => if e < 10000 then 10 * e + (c.toNat - 48) else e) 0

/-- Whether `m * 10 ^ e` rounds to an infinite float64 (`strconv.ParseFloat` then reports a
range error): it is at least `2^1024 - 2^970`, half an ulp above the largest float64. -/
def float64Overflows (m : Nat) (e : Int) : Bool :=
  if 0 ≤ e then decide (2 ^ 1024 - 2 ^ 970 ≤ m * 10 ^ e.toNat)
  else decide ((2 ^ 1024 - 2 ^ 970) * 10 ^ (-e).toNat ≤ m)

/-- The end of a JSON number with mantissa `m` and decimal exponent `e`: the rest of the
text, unless the number overflows a float64. -/
def finishNumber (m : Nat) (e : Int) (rest : Str) : Option Str :=
  if float64Overflows m e then none else some rest

/-- The text after the optional sign of an exponent. -/
def dropSign : Str → Str
  | [] => []
  | c :: x => if c == '-' || c == '+' then x else c :: x

/-- Whether the text starts with a minus sign. -/
def startsWithMinus : Str → Bool
  | [] => false
  | c :: _ => c == '-'

/-- The exponent written by the digits `es` behind the optional sign that starts `r`. -/
def signedExponent (r es : Str) : Int :=
  if startsWithMinus r then -(exponentValue es : Int) else (exponentValue es : Int)

/-- The exponent part of a JSON number, after the mantissa digits `ds` with `fl` of them
behind the decimal point. -/
def scanExponent (ds : Str) (fl : Nat) : Str → Option Str
  | [] => finishNumber (digitsValue ds) (-(fl : Int)) []
  | c :: r =>
    if c == 'e' || c == 'E' then
      if (takeDigits (dropSign r)).1.isEmpty then none
      else
        finishNumber (digitsValue ds)
          (signedExponent r (takeDigits (dropSign r)).1 - (fl : Int))
          (takeDigits (dropSign r)).2
    else finishNumber (digitsValue ds) (-(fl : Int)) (c :: r)

/-- The fraction and exponent part of a JSON number, after the integer digits `ds`. -/
def scanFraction (ds : Str) : Str → Option Str
  | [] => scanExponent ds 0 []
  | c :: r =>
    if c == '.' then
      if (takeDigits r).1.isEmpty then none
      else scanExponent (ds ++ (takeDigits r).1) (takeDigits r).1.length (takeDigits r).2
    else scanExponent ds 0 (c :: r)

/-- The integer, fraction and exponent part of a JSON number, after its optional sign. -/
def scanUnsigned : Str → Option Str
  | [] => none
  | c :: r =>
    if c == '0' then scanFraction [c] r
    else if isDecimalDigit c then scanFraction (c :: (takeDigits r).1) (takeDigits r).2
    else none

/-- Scan a JSON number (`-? (0 | [1-9][0-9]*) (. [0-9]+)? ([eE] [+-]? [0-9]+)?`) that fits
a float64; the text after it. -/
def scanNumber : Str → Option Str
  | [] => none
  | c :: r => if c == '-' then scanUnsigned r else scanUnsigned (c :: r)

/-- What the JSON scanner is reading: a value, the elements of an array after `[`, or the
members of an object after `{`. -/
inductive JsonMode where
  | value
  | elements
  | members

/-- The rest of the text after the literal `w`, when the text starts with it. -/
def dropLiteral (w s : Str) : Option Str :=
  if w.isPrefixOf s then some (s.drop w.length) else none

/-- The rest of the text after optional whitespace and the character `c`, when that is
how the text starts. -/
def closes (c : Char) (s : Str) : Option Str :=
  match skipSpace s with
  | [] => none
  | d :: r => if d == c then some r else none

/-- The nesting limit of `encoding/json`: a text that opens more than this many arrays and
objects inside one another is rejected ("exceeded max depth"). -/
def maxNestingDepth : Nat := 10000

/-- Scan one JSON value (or the rest of an array or object) with the given recursion
budget, `room` being the number of arrays and objects that may still be opened inside
one another; the text after it, or `none` when the text is not accepted. -/
def jsonScan : Nat → JsonMode → Nat → Str → Option Str
  | 0, _, _, _ => none
  | fuel + 1, JsonMode.value, room, s =>
    match skipSpace s with
    | [] => none
    | c :: r =>
      if c == '{' then
        if room = 0 then none
        else
          match closes '}' r with
          | some r2 => some r2
          | none => jsonScan fuel JsonMode.members (room - 1) r
      else if c == '[' then
        if room = 0 then none
        else
          match closes ']' r with
          | some r2 => some r2
          | none => jsonScan fuel JsonMode.elements (room - 1) r
      else if c == '"' then scanString r
      else if c == 't' then dropLiteral "rue".toList r
      else if c == 'f' then dropLiteral "alse".toList r
      else if c == 'n' then dropLiteral "ull".toList r
      else scanNumber (c :: r)
  | fuel + 1, JsonMode.elements, room, s =>
    match jsonScan fuel JsonMode.value room s with
    | none => none
    | some r =>
      match skipSpace r with
      | [] => none
      | c :: r2 =>
        if c == ',' then jsonScan fuel JsonMode.elements room r2
        else if c == ']' then some r2
        else none
  | fuel + 1, JsonMode.members, room, s =>
    match skipSpace s with
    | [] => none
    | c :: r =>
      if c == '"' then
        match scanString r with
        | none => none
        | some r1 =>
          match skipSpace r1 with
          | [] => none
          | c2 :: r2 =>
            if c2 == ':' then
              match jsonScan fuel JsonMode.value room r2 with
              | none => none
              | some r3 =>
                match skipSpace r3 with
                | [] => none
                | c4 :: r4 =>
                  if c4 == ',' then jsonScan fuel JsonMode.members room r4
                  else if c4 == '}' then some r4
                  else none
            else none
      else none

/-- Whether `json.Unmarshal([]byte(value), &vcapStruct)` returns a nil error, for
`vcapStruct` of type `map[string]interface{}`: the text is a JSON object, or the literal
`null`, with nothing but whitespace around it. -/
def unmarshalIntoMap (value : Str) : Bool :=
  match skipSpace value with
  | [] => false
  | c :: r =>
    if c == '{' then
      match jsonScan (2 * value.length + 2) JsonMode.value maxNestingDepth value with
      | some rest => (skipSpace rest).isEmpty
      | none => false
    else if c == 'n' then
      match dropLiteral "ull".toList r with
      | some rest => (skipSpace rest).isEmpty
      | none => false
    else false

/-- The loop of `assertJsonParseable`, from iteration `i` on: `value, ok := env[varName]`,
`Expect(ok).To(BeTrue())`, then `err := json.Unmarshal([]byte(value), &vcapStruct)`,
`Expect(err).To(BeNil())`. -/
def assertJsonParseableLoop (env : Env) : List Str → Nat → Outcome
  | [], _ => Outcome.passed
  | varName :: rest, i =>
    match env varName with
    | none => Outcome.failed i 0
    | some value =>
      if unmarshalIntoMap value then assertJsonParseableLoop env rest (i + 1)
      else Outcome.failed i 1

/-- Source `assertJsonParseable`; the map it was given is returned next to the outcome. -/
def assertJsonParseable (env : Env) (varNames : List Str) : Env × Outcome :=
  (env, assertJsonParseableLoop env varNames 0)

/-! ### The texts `json.Unmarshal` accepts for a `map[string]interface{}`, as a grammar -/

/-- A run of JSON whitespace. -/
def IsSpaces (ws : Str) : Prop := ∀ c ∈ ws, isJsonSpace c = true

/-- A run of decimal digits. -/
def IsDigits (ds : Str) : Prop := ∀ c ∈ ds, isDecimalDigit c = true

/-- The text of a JSON string after its opening quote, closing quote included: plain
characters from U+0020 on other than quote and backslash, two-character escapes, and
`\u` followed by four hexadecimal digits. -/
inductive StringBody : Str → Prop where
  | close : StringBody ['"']
  | plain (c : Char) (rest : Str) :
    c ≠ '"' → c ≠ '\\' → 32 ≤ c.toNat → StringBody rest → StringBody (c :: rest)
  | escape (e : Char) (rest : Str) :
    e ≠ 'u' → isEscapeChar e = true → StringBody rest → StringBody ('\\' :: e :: rest)
  | unicode (h1 h2 h3 h4 : Char) (rest : Str) :
    isHexDigit h1 = true → isHexDigit h2 = true → isHexDigit h3 = true →
    isHexDigit h4 = true → StringBody rest →
    StringBody ('\\' :: 'u' :: h1 :: h2 :: h3 :: h4 :: rest)

/-- The integer part of a JSON number: `0`, or a non-zero digit followed by digits. -/
inductive IntegerPart : Str → Prop where
  | zero : IntegerPart ['0']
  | nonzero (d : Char) (ds : Str) :
    d ≠ '0' → isDecimalDigit d = true → IsDigits ds → IntegerPart (d :: ds)

/-- The optional fraction part of a JSON number, with its digits. -/
inductive FractionPart : Str → Str → Prop where
  | absent : FractionPart [] []
  | present (fs : Str) : fs ≠ [] → IsDigits fs → FractionPart ('.' :: fs) fs

/-- The optional exponent part of a JSON number, with the exponent it denotes for
`strconv.ParseFloat`. -/
inductive ExponentPart : Str → Int → Prop where
  | absent : ExponentPart [] 0
  | unsigned (e : Char) (es : Str) :
    (e = 'e' ∨ e = 'E') → es ≠ [] → IsDigits es →
    ExponentPart (e :: es) (exponentValue es : Int)
  | plus (e : Char) (es : Str) :
    (e = 'e' ∨ e = 'E') → es ≠ [] → IsDigits es →
    ExponentPart (e :: '+' :: es) (exponentValue es : Int)
  | minus (e : Char) (es : Str) :
    (e = 'e' ∨ e = 'E') → es ≠ [] → IsDigits es →
    ExponentPart (e :: '-' :: es) (-(exponentValue es : Int))

/-- The number `m * 10 ^ e` lies below `2^1024 - 2^970`, so it rounds to a finite
float64. -/
def FitsFloat64 (m : Nat) (e : Int) : Prop :=
  (m : ℚ) * (10 : ℚ) ^ e < 2 ^ 1024 - 2 ^ 970

/-- A JSON number that fits a float64: optional minus sign, integer part, optional
fraction, optional exponent. -/
def JsonNumber (x : Str) : Prop :=
  ∃ (sign int frac fs ex : Str) (e : Int),
    x = sign ++ (int ++ (frac ++ ex)) ∧ (sign = [] ∨ sign = ['-']) ∧
    IntegerPart int ∧ FractionPart frac fs ∧ ExponentPart ex e ∧
    FitsFloat64 (digitsValue (int ++ fs)) (e - (fs.length : Int))

/-- The accepted texts: `JsonText JsonMode.value k v` says that `v` is a JSON value
(without surrounding whitespace) that opens at most `k` arrays and objects inside one
another; `JsonText JsonMode.elements k x` that `x` is what follows the `[` of a non-empty
array whose elements are such values, up to and including its `]`; and
`JsonText JsonMode.members k x` the same for what follows the `{` of an object. -/
inductive JsonText : JsonMode → Nat → Str → Prop where
  | string (k : Nat) (body : Str) :
    StringBody body → JsonText JsonMode.value k ('"' :: body)
  | number (k : Nat) (x : Str) : JsonNumber x → JsonText JsonMode.value k x
  | litTrue (k : Nat) : JsonText JsonMode.value k "true".toList
  | litFalse (k : Nat) : JsonText JsonMode.value k "false".toList
  | litNull (k : Nat) : JsonText JsonMode.value k "null".toList
  | emptyObject (k : Nat) (ws : Str) :
    IsSpaces ws → JsonText JsonMode.value (k + 1) ('{' :: (ws ++ ['}']))
  | object (k : Nat) (ms : Str) :
    JsonText JsonMode.members k ms → JsonText JsonMode.value (k + 1) ('{' :: ms)
  | emptyArray (k : Nat) (ws : Str) :
    IsSpaces ws → JsonText JsonMode.value (k + 1) ('[' :: (ws ++ [']']))
  | array (k : Nat) (es : Str) :
    JsonText JsonMode.elements k es → JsonText JsonMode.value (k + 1) ('[' :: es)
  | lastElement (k : Nat) (ws1 v ws2 : Str) :
    IsSpaces ws1 → JsonText JsonMode.value k v → IsSpaces ws2 →
    JsonText JsonMode.elements k (ws1 ++ (v ++ (ws2 ++ [']'])))
  | moreElements (k : Nat) (ws1 v ws2 rest : Str) :
    IsSpaces ws1 → JsonText JsonMode.value k v → IsSpaces ws2 →
    JsonText JsonMode.elements k rest →
    JsonText JsonMode.elements k (ws1 ++ (v ++ (ws2 ++ ',' :: rest)))
  | lastMember (k : Nat) (ws1 key ws2 ws3 v ws4 : Str) :
    IsSpaces ws1 → StringBody key → IsSpaces ws2 → IsSpaces ws3 →
    JsonText JsonMode.value k v → IsSpaces ws4 →
    JsonText JsonMode.members k
      (ws1 ++ '"' :: (key ++ (ws2 ++ ':' :: (ws3 ++ (v ++ (ws4 ++ ['}']))))))
  | moreMembers (k : Nat) (ws1 key ws2 ws3 v ws4 rest : Str) :
    IsSpaces ws1 → StringBody key → IsSpaces ws2 → IsSpaces ws3 →
    JsonText JsonMode.value k v → IsSpaces ws4 → JsonText JsonMode.members k rest →
    JsonText JsonMode.members k
      (ws1 ++ '"' :: (key ++ (ws2 ++ ':' :: (ws3 ++ (v ++ (ws4 ++ ',' :: rest))))))

/-- The texts that decode into a `map[string]interface{}`: between optional whitespace,
the literal `null`, or a JSON object nested at most `maxNestingDepth` deep whose numbers
fit a float64. -/
def DecodesIntoMap (value : Str) : Prop :=
  ∃ ws1 body ws2 : Str, value = ws1 ++ (body ++ ws2) ∧ IsSpaces ws1 ∧ IsSpaces ws2 ∧
    (body = "null".toList ∨
      ∃ inner, body = '{' :: inner ∧ JsonText JsonMode.value maxNestingDepth body)

/-- The text does not start with a decimal digit. -/
def NoDigitAhead (rest : Str) : Prop := ∀ c t, rest = c :: t → isDecimalDigit c = false

/-- The text does not start with a character that could continue a number. -/
def NumberEnd (rest : Str) : Prop :=
  ∀ c t, rest = c :: t → isDecimalDigit c = false ∧ c ≠ '.' ∧ c ≠ 'e' ∧ c ≠ 'E'

/-- The text is empty or starts with what may follow a value inside a JSON text:
whitespace, a comma or a closing bracket. -/
def Delimited (rest : Str) : Prop :=
  ∀ c t, rest = c :: t → isJsonSpace c = true ∨ c = ',' ∨ c = ']' ∨ c = '}'

/-- What a scan in mode `m` reads: a value with the whitespace before it, or the rest of
an array or object. -/
def ScanText (m : JsonMode) (room : Nat) (x : Str) : Prop :=
  match m with
  | JsonMode.value => ∃ ws v, x = ws ++ v ∧ IsSpaces ws ∧ JsonText JsonMode.value room v
  | JsonMode.elements => JsonText JsonMode.elements room x
  | JsonMode.members => JsonText JsonMode.members room x

/-- The scan in mode `m` with budget `f` reads the text `x` whatever follows it (for a
value: whatever whitespace precedes it and whatever delimiter follows it). -/
def ScansTo (f : Nat) (m : JsonMode) (room : Nat) (x : Str) : Prop :=
  match m with
  | JsonMode.value =>
    ∀ ws rest, IsSpaces ws → Delimited rest →
      jsonScan f JsonMode.value room (ws ++ (x ++ rest)) = some rest
  | JsonMode.elements => ∀ rest, jsonScan f JsonMode.elements room (x ++ rest) = some rest
  | JsonMode.members => ∀ rest, jsonScan f JsonMode.members room (x ++ rest) = some rest

/-- The object `{"a":[[...[]...]]}` holding `n` arrays nested inside one another. -/
def nestedArrays (n : Nat) : Str :=
  "\x7b\"a\":".toList ++ (List.replicate n '[' ++ (List.replicate n ']' ++ ['}']))

/-! ## The task-log pattern filter

The second scenario keeps the log lines matched by
`regexp.MustCompile("\[APP/TASK/" + taskName + "/\d+\]\s+OUT\s+.*?=")`. Regular
expressions are embedded as a syntax tree with a derivative-based matcher;
`MatchString` reports whether some substring of the line matches. -/

/-- Regular expressions over characters; `sym p` matches one character satisfying `p`. -/
inductive Regex where
  | nothing
  | empty
  | sym (p : Char → Bool)
  | cat (a b : Regex)
  | alt (a b : Regex)
  | star (a : Regex)

/-- Whether the expression matches the empty text. -/
def Regex.nullable : Regex → Bool
  | Regex.nothing => false
  | Regex.empty => true
  | Regex.sym _ => false
  | Regex.cat a b => a.nullable && b.nullable
  | Regex.alt a b => a.nullable || b.nullable
  | Regex.star _ => true

/-- The derivative: what remains to be matched after reading the character `c`. -/
def Regex.deriv : Regex → Char → Regex
  | Regex.nothing, _ => Regex.nothing
  | Regex.empty, _ => Regex.nothing
  | Regex.sym p, c => if p c then Regex.empty else Regex.nothing
  | Regex.cat a b, c =>
    if a.nullable then Regex.alt (Regex.cat (a.deriv c) b) (b.deriv c)
    else Regex.cat (a.deriv c) b
  | Regex.alt a b, c => Regex.alt (a.deriv c) (b.deriv c)
  | Regex.star a, c => Regex.cat (a.deriv c) (Regex.star a)

/-- Whether the whole text matches the expression. -/
def Regex.fullMatch (r : Regex) : Str → Bool
  | [] => r.nullable
  | c :: s => (r.deriv c).fullMatch s

/-- The literal text `w`. -/
def Regex.lit : Str → Regex
  | [] => Regex.empty
  | c :: w => Regex.cat (Regex.sym (fun x => x == c)) (Regex.lit w)

/-- One or more repetitions, `a+`. -/
def Regex.plus (a : Regex) : Regex := Regex.cat a (Regex.star a)

/-- Any character at all. -/
def Regex.anyChar : Regex := Regex.sym (fun _ => true)

/-- Go `(*Regexp).MatchString`: some substring of `s` matches `r`. -/
def matchString (r : Regex) (s : Str) : Bool :=
  (Regex.cat (Regex.star Regex.anyChar) (Regex.cat r (Regex.star Regex.anyChar))).fullMatch s

/-- The class `\d`: an ASCII decimal digit. -/
def isDigitClass (c : Char) : Bool := '0' ≤ c && c ≤ '9'

/-- The class `\s`: tab, line feed, form feed, carriage return or space. -/
def isSpaceClass (c : Char) : Bool :=
  c == '\t' || c == '\n' || c == '\x0c' || c == '\r' || c == ' '

/-- The class `.`: any character except a line feed. -/
def isDotClass (c : Char) : Bool := c != '\n'

/-- The task name of the scenario, `taskName := "get-env"`; it holds no pattern
metacharacter, so it stands for itself inside the pattern. -/
def taskName : Str := "get-env".toList

/-- The pattern `\[APP/TASK/get-env/\d+\]\s+OUT\s+.*?=`. -/
def ptn : Regex :=
  Regex.cat (Regex.lit "[APP/TASK/".toList)
    (Regex.cat (Regex.lit taskName)
      (Regex.cat (Regex.lit "/".toList)
        (Regex.cat (Regex.plus (Regex.sym isDigitClass))
          (Regex.cat (Regex.lit "]".toList)
            (Regex.cat (Regex.plus (Regex.sym isSpaceClass))
              (Regex.cat (Regex.lit "OUT".toList)
                (Regex.cat (Regex.plus (Regex.sym isSpaceClass))
                  (Regex.cat (Regex.star (Regex.sym isDotClass))
                    (Regex.lit "=".toList)))))))))

/-- The filtering loop of the task scenario: `finalLines` collects, in order, the lines
for which `ptn.MatchString(line)` holds. -/
def finalLines : List Str → List Str
  | [] => []
  | line :: rest =>
    if matchString ptn line then line :: finalLines rest else finalLines rest

/-- The texts an expression matches (its language). -/
inductive Regex.Matches : Regex → Str → Prop where
  | empty : Regex.Matches Regex.empty []
  | sym (p : Char → Bool) (c : Char) : p c = true → Regex.Matches (Regex.sym p) [c]
  | cat (a b : Regex) (s t : Str) :
    Regex.Matches a s → Regex.Matches b t → Regex.Matches (Regex.cat a b) (s ++ t)
  | altLeft (a b : Regex) (s : Str) : Regex.Matches a s → Regex.Matches (Regex.alt a b) s
  | altRight (a b : Regex) (s : Str) : Regex.Matches b s → Regex.Matches (Regex.alt a b) s
  | starNil (a : Regex) : Regex.Matches (Regex.star a) []
  | starCons (a : Regex) (s t : Str) :
    Regex.Matches a s → Regex.Matches (Regex.star a) t → Regex.Matches (Regex.star a) (s ++ t)

/-- The lines claim C8 describes: somewhere in the line, `[APP/TASK/get-env/`, one or more
digits, `]`, one or more whitespace characters, `OUT`, one or more whitespace characters,
then a later `=` with no line feed in between. -/
def TaskOutputLine (line : Str) : Prop :=
  ∃ pre ds ws1 ws2 mid post : Str,
    line = pre ++ ("[APP/TASK/get-env/".toList ++ (ds ++ (']' :: (ws1 ++ ("OUT".toList ++
      (ws2 ++ (mid ++ ('=' :: post)))))))) ∧
    ds ≠ [] ∧ (∀ c ∈ ds, isDigitClass c = true) ∧
    ws1 ≠ [] ∧ (∀ c ∈ ws1, isSpaceClass c = true) ∧
    ws2 ≠ [] ∧ (∀ c ∈ ws2, isSpaceClass c = true) ∧
    (∀ c ∈ mid, c ≠ '\n')

/-! ## Facts about the scanning loop -/

theorem filterLoop_cons (line : Str) (rest : List Str) (i : Nat) (st : Int) :
    filterLoop (line :: rest) i st =
      if contains line startMarker then filterLoop rest (i + 1) (i : Int)
      else if decide (st > -1) && contains line endMarker then (st, (i : Int))
      else filterLoop rest (i + 1) st := rfl

theorem filterLoop_noStart (A rest : List Str) (i : Nat)
    (hA : ∀ a ∈ A, contains a startMarker = false) :
    filterLoop (A ++ rest) i (-1) = filterLoop rest (i + A.length) (-1) := by
  induction A generalizing i with
  | nil => simp
  | cons a A ih =>
    have ha := hA a (List.mem_cons_self _ _)
    have hA2 : ∀ x ∈ A, contains x startMarker = false :=
      fun x hx => hA x (List.mem_cons_of_mem _ hx)
    rw [List.cons_append, filterLoop_cons, ha, ih (i + 1) hA2]
    simp [Nat.add_assoc, Nat.add_comm 1]

theorem filterLoop_plain (M rest : List Str) (i : Nat) (st : Int)
    (hM : ∀ m ∈ M, contains m startMarker = false ∧ contains m endMarker = false) :
    filterLoop (M ++ rest) i st = filterLoop rest (i + M.length) st := by
  induction M generalizing i with
  | nil => simp
  | cons a M ih =>
    have ha := hM a (List.mem_cons_self _ _)
    have hM2 : ∀ x ∈ M, contains x startMarker = false ∧ contains x endMarker = false :=
      fun x hx => hM x (List.mem_cons_of_mem _ hx)
    rw [List.cons_append, filterLoop_cons, ha.1, ha.2, ih (i + 1) hM2]
    simp [Nat.add_assoc, Nat.add_comm 1]

theorem filterLoop_skip (X rest : List Str) (i : Nat) (st : Int)
    (hX : ∀ x ∈ X, contains x endMarker = true → contains x startMarker = true) :
    ∃ st2 : Int, filterLoop (X ++ rest) i st = filterLoop rest (i + X.length) st2 ∧
      (st > -1 → st2 > -1) := by
  induction X generalizing i st with
  | nil => exact ⟨st, by simp, fun h => h⟩
  | cons a X ih =>
    have ha := hX a (List.mem_cons_self _ _)
    have hX2 : ∀ x ∈ X, contains x endMarker = true → contains x startMarker = true :=
      fun x hx => hX x (List.mem_cons_of_mem _ hx)
    by_cases hs : contains a startMarker = true
    · obtain ⟨st2, h1, h2⟩ := ih (i + 1) (i : Int) hX2
      refine ⟨st2, ?_, fun _ => h2 (by omega)⟩
      rw [List.cons_append, filterLoop_cons, hs, if_pos rfl, h1]
      simp [Nat.add_assoc, Nat.add_comm 1]
    · have he : contains a endMarker = false := by
        cases h : contains a endMarker
        · rfl
        · exact absurd (ha h) hs
      have hs2 : contains a startMarker = false := by simpa using hs
      obtain ⟨st2, h1, h2⟩ := ih (i + 1) st hX2
      refine ⟨st2, ?_, h2⟩
      rw [List.cons_append, filterLoop_cons, hs2, he, h1]
      simp [Nat.add_assoc, Nat.add_comm 1]

/-- The window lemma: after a prefix `A` without start sentinel and a stretch `X` without
closing line, a start line `s`, plain lines `M` and a closing line `c` give the window `M`. -/
theorem filterEnvironmentLines_window (A X M P : List Str) (s c : Str)
    (hA : ∀ a ∈ A, contains a startMarker = false)
    (hX : ∀ x ∈ X, contains x endMarker = true → contains x startMarker = true)
    (hs : contains s startMarker = true)
    (hM : ∀ m ∈ M, contains m startMarker = false ∧ contains m endMarker = false)
    (hc1 : contains c startMarker = false) (hc2 : contains c endMarker = true) :
    filterEnvironmentLines (A ++ (X ++ s :: (M ++ c :: P))) = some M := by
  obtain ⟨st2, h1, _⟩ := filterLoop_skip X (s :: (M ++ c :: P)) (0 + A.length) (-1) hX
  have hloop : filterLoop (A ++ (X ++ s :: (M ++ c :: P))) 0 (-1) =
      (((A.length + X.length : Nat) : Int), ((A.length + X.length + 1 + M.length : Nat) : Int)) := by
    rw [filterLoop_noStart A _ 0 hA, h1, filterLoop_cons, hs, if_pos rfl,
      filterLoop_plain M _ _ _ hM, filterLoop_cons, hc1, hc2]
    simp
    omega
  unfold filterEnvironmentLines
  simp only [hloop]
  have hne : ¬ (((A.length + X.length : Nat) : Int) = -1) := by omega
  rw [if_neg hne]
  unfold slice
  have hb : (0 : Int) ≤ ((A.length + X.length : Nat) : Int) + 1 ∧
      ((A.length + X.length : Nat) : Int) + 1 ≤ ((A.length + X.length + 1 + M.length : Nat) : Int) ∧
      ((A.length + X.length + 1 + M.length : Nat) : Int) ≤
        ((A ++ (X ++ s :: (M ++ c :: P))).length : Int) := by
    simp only [List.length_append, List.length_cons]
    omega
  rw [if_pos hb]
  have e1 : (((A.length + X.length + 1 + M.length : Nat) : Int)).toNat
      = (A ++ X ++ [s]).length + M.length := by
    simp
    omega
  have e2 : (((A.length + X.length : Nat) : Int) + 1).toNat = (A ++ X ++ [s]).length := by
    simp
    omega
  have e3 : A ++ (X ++ s :: (M ++ c :: P)) = (A ++ X ++ [s]) ++ (M ++ c :: P) := by simp
  rw [e1, e2, e3, List.take_append, List.take_left, List.drop_left]

theorem filterEnvironmentLines_of_noStart (lines : List Str)
    (h : ∀ l ∈ lines, contains l startMarker = false) :
    filterEnvironmentLines lines = some lines := by
  have hl : filterLoop lines 0 (-1) = (-1, -1) := by
    have := filterLoop_noStart lines [] 0 h
    simpa [filterLoop] using this
  simp [filterEnvironmentLines, hl]

theorem filterEnvironmentLines_of_unclosed (A B : List Str) (s : Str)
    (hA : ∀ a ∈ A, contains a startMarker = false)
    (hs : contains s startMarker = true)
    (hB : ∀ b ∈ B, contains b endMarker = true → contains b startMarker = true) :
    filterEnvironmentLines (A ++ s :: B) = none := by
  obtain ⟨st2, h1, h2⟩ := filterLoop_skip B [] (0 + A.length + 1) ((0 + A.length : Nat) : Int) hB
  have hloop : filterLoop (A ++ s :: B) 0 (-1) = (st2, -1) := by
    rw [filterLoop_noStart A _ 0 hA, filterLoop_cons, hs, if_pos rfl]
    rw [List.append_nil] at h1
    rw [h1]
    rfl
  have hpos : st2 > -1 := h2 (by omega)
  unfold filterEnvironmentLines
  simp only [hloop]
  rw [if_neg (by omega)]
  unfold slice
  rw [if_neg (by omega)]

/-! ## Splitting a list at the first and at the last element satisfying a test -/

theorem exists_first_split {α : Type} (p : α → Bool) (xs : List α)
    (h : ∃ x ∈ xs, p x = true) :
    ∃ A s B, xs = A ++ s :: B ∧ (∀ a ∈ A, p a = false) ∧ p s = true := by
  induction xs with
  | nil => obtain ⟨x, hx, _⟩ := h; cases hx
  | cons y ys ih =>
    by_cases hy : p y = true
    · exact ⟨[], y, ys, rfl, by simp, hy⟩
    · have hy2 : p y = false := by simpa using hy
      have h2 : ∃ x ∈ ys, p x = true := by
        obtain ⟨x, hx, hpx⟩ := h
        rcases List.mem_cons.mp hx with rfl | hx2
        · exact absurd hpx hy
        · exact ⟨x, hx2, hpx⟩
      obtain ⟨A, s, B, e, hA, hs⟩ := ih h2
      refine ⟨y :: A, s, B, by rw [e]; rfl, ?_, hs⟩
      intro a ha
      rcases List.mem_cons.mp ha with rfl | ha2
      · exact hy2
      · exact hA a ha2

theorem exists_last_split {α : Type} (p : α → Bool) (xs : List α)
    (h : ∃ x ∈ xs, p x = true) :
    ∃ X s M, xs = X ++ s :: M ∧ p s = true ∧ (∀ m ∈ M, p m = false) := by
  induction xs with
  | nil => obtain ⟨x, hx, _⟩ := h; cases hx
  | cons y ys ih =>
    by_cases h2 : ∃ x ∈ ys, p x = true
    · obtain ⟨X, s, M, e, hs, hM⟩ := ih h2
      exact ⟨y :: X, s, M, by rw [e]; rfl, hs, hM⟩
    · have hy : p y = true := by
        obtain ⟨x, hx, hpx⟩ := h
        rcases List.mem_cons.mp hx with rfl | hx2
        · exact hpx
        · exact absurd ⟨x, hx2, hpx⟩ h2
      refine ⟨[], y, ys, rfl, hy, ?_⟩
      intro m hm
      cases hpm : p m
      · rfl
      · exact absurd ⟨m, hm, hpm⟩ h2

/-- Every input of `filterEnvironmentLines` falls in one of three cases: no start line
(identity), a start line never followed by a closing line (fault), or a window. -/
theorem filterEnvironmentLines_cases (lines : List Str) :
    ((∀ l ∈ lines, contains l startMarker = false) ∧
        filterEnvironmentLines lines = some lines) ∨
    (∃ A s B, lines = A ++ s :: B ∧ (∀ a ∈ A, contains a startMarker = false) ∧
        contains s startMarker = true ∧
        (∀ b ∈ B, contains b endMarker = true → contains b startMarker = true) ∧
        filterEnvironmentLines lines = none) ∨
    (∃ M : List Str, (∀ m ∈ M, contains m startMarker = false) ∧
        filterEnvironmentLines lines = some M) := by
  by_cases h : ∃ l ∈ lines, contains l startMarker = true
  · obtain ⟨A, s0, B, e, hA, hs0⟩ := exists_first_split (fun l => contains l startMarker) lines h
    by_cases hc : ∃ b ∈ B, (!contains b startMarker && contains b endMarker) = true
    · obtain ⟨B1, c, P, eB, hB1, hcc⟩ :=
        exists_first_split (fun b => !contains b startMarker && contains b endMarker) B hc
      obtain ⟨X, s, M, eX, hs, hM⟩ :=
        exists_last_split (fun l => contains l startMarker) (s0 :: B1)
          ⟨s0, List.mem_cons_self _ _, hs0⟩
      have hc1 : contains c startMarker = false := by
        simp only [Bool.and_eq_true, Bool.not_eq_true'] at hcc
        exact hcc.1
      have hc2 : contains c endMarker = true := by
        simp only [Bool.and_eq_true, Bool.not_eq_true'] at hcc
        exact hcc.2
      have hmem : ∀ y ∈ s0 :: B1, contains y endMarker = true → contains y startMarker = true := by
        intro y hy hye
        rcases List.mem_cons.mp hy with rfl | hy2
        · exact hs0
        · have := hB1 y hy2
          simp only [Bool.and_eq_false_imp, Bool.not_eq_true'] at this
          cases hys : contains y startMarker
          · rw [this hys] at hye; cases hye
          · rfl
      have hX : ∀ x ∈ X, contains x endMarker = true → contains x startMarker = true := by
        intro x hx
        exact hmem x (by rw [eX]; exact List.mem_append_left _ hx)
      have hM2 : ∀ m ∈ M, contains m startMarker = false ∧ contains m endMarker = false := by
        intro m hm
        refine ⟨hM m hm, ?_⟩
        cases hme : contains m endMarker
        · rfl
        · have := hmem m (by rw [eX]; exact List.mem_append_right _ (List.mem_cons_of_mem _ hm)) hme
          rw [hM m hm] at this
          cases this
      have elines : lines = A ++ (X ++ s :: (M ++ c :: P)) := by
        rw [e, eB]
        have : s0 :: (B1 ++ c :: P) = (s0 :: B1) ++ c :: P := rfl
        rw [this, eX]
        simp
      right; right
      refine ⟨M, fun m hm => (hM2 m hm).1, ?_⟩
      rw [elines]
      exact filterEnvironmentLines_window A X M P s c hA hX hs hM2 hc1 hc2
    · right; left
      have hB : ∀ b ∈ B, contains b endMarker = true → contains b startMarker = true := by
        intro b hb hbe
        cases hbs : contains b startMarker
        · exact absurd ⟨b, hb, by simp [hbs, hbe]⟩ hc
        · rfl
      refine ⟨A, s0, B, e, hA, hs0, hB, ?_⟩
      rw [e]
      exact filterEnvironmentLines_of_unclosed A B s0 hA hs0 hB
  · left
    have h2 : ∀ l ∈ lines, contains l startMarker = false := by
      intro l hl
      cases hls : contains l startMarker
      · rfl
      · exact absurd ⟨l, hl, hls⟩ h
    exact ⟨h2, filterEnvironmentLines_of_noStart lines h2⟩

theorem slice_contiguous {α : Type} (xs r : List α) (lo hi : Int) (h : slice xs lo hi = some r) :
    r <:+: xs := by
  unfold slice at h
  split at h
  · injection h with h
    rw [← h]
    exact (List.drop_suffix _ _).isInfix.trans (List.take_prefix _ _).isInfix
  · cases h

/-! ## Claims about `filterEnvironmentLines` -/

/-- C1 (as stated, refuted): on the claim's own example
`["x START_ENV_CMD", "a", "y START_ENV_CMD", "b", "z END_ENV_CMD"]`, where a line contains
the start sentinel and a later line the end sentinel, the window after the FIRST start
line is `["a", "y START_ENV_CMD", "b"]` but `filterEnvironmentLines` returns `["b"]`; and
when the only later line with the end sentinel also carries the start sentinel, it
returns nothing at all. -/
theorem filterEnvironmentLines_first_start_refuted :
    contains "x START_ENV_CMD".toList startMarker = true ∧
    contains "z END_ENV_CMD".toList endMarker = true ∧
    windowAfterFirstStart restartExample =
      ["a".toList, "y START_ENV_CMD".toList, "b".toList] ∧
    filterEnvironmentLines restartExample = some ["b".toList] ∧
    filterEnvironmentLines restartExample ≠ some (windowAfterFirstStart restartExample) ∧
    filterEnvironmentLines ["START_ENV_CMD".toList, "START_ENV_CMD END_ENV_CMD".toList] =
      none := by
  decide

/-- C1 (amended): when the lines are `A ++ X ++ [s] ++ M ++ [c] ++ P` where no line of `A`
contains the start sentinel, every line of `X` containing the end sentinel also contains the
start sentinel, `s` contains the start sentinel, no line of `M` contains either sentinel and
`c` contains the end sentinel but not the start sentinel (so `c` is the first closing line
after the first start line and `s` the last start line before it),
`filterEnvironmentLines` returns exactly `M`, in order, without `s` and `c`. -/
theorem filterEnvironmentLines_last_start_window (A X M P : List Str) (s c : Str)
    (hA : ∀ a ∈ A, contains a startMarker = false)
    (hX : ∀ x ∈ X, contains x endMarker = true → contains x startMarker = true)
    (hs : contains s startMarker = true)
    (hM : ∀ m ∈ M, contains m startMarker = false ∧ contains m endMarker = false)
    (hc1 : contains c startMarker = false) (hc2 : contains c endMarker = true) :
    filterEnvironmentLines (A ++ (X ++ s :: (M ++ c :: P))) = some M :=
  filterEnvironmentLines_window A X M P s c hA hX hs hM hc1 hc2

/-- Witness for C1 (amended) on the claim's example: the result is `["b"]`. -/
theorem filterEnvironmentLines_last_start_window_witness :
    filterEnvironmentLines
      ([] ++ (["x START_ENV_CMD".toList, "a".toList] ++
        "y START_ENV_CMD".toList :: (["b".toList] ++ "z END_ENV_CMD".toList :: []))) =
      some ["b".toList] :=
  filterEnvironmentLines_last_start_window [] ["x START_ENV_CMD".toList, "a".toList]
    ["b".toList] [] "y START_ENV_CMD".toList "z END_ENV_CMD".toList
    (by decide) (by decide) (by decide) (by decide) (by decide) (by decide)

/-- C2: when no line contains the start sentinel (the empty list included, and whatever
lines contain the end sentinel), `filterEnvironmentLines` returns the input unchanged. -/
theorem filterEnvironmentLines_identity (lines : List Str)
    (h : ∀ l ∈ lines, contains l startMarker = false) :
    filterEnvironmentLines lines = some lines :=
  filterEnvironmentLines_of_noStart lines h

/-- Witness for C2: a list with an end sentinel line but no start sentinel line. -/
theorem filterEnvironmentLines_identity_witness :
    filterEnvironmentLines ["q END_ENV_CMD".toList, "a".toList, "".toList] =
      some ["q END_ENV_CMD".toList, "a".toList, "".toList] :=
  filterEnvironmentLines_identity ["q END_ENV_CMD".toList, "a".toList, "".toList] (by decide)

/-- C3: `filterEnvironmentLines` is idempotent: whenever it returns `r` on some input, it
also returns on `r`, and the result is `r` again. -/
theorem filterEnvironmentLines_idempotent (lines r : List Str)
    (h : filterEnvironmentLines lines = some r) :
    filterEnvironmentLines r = some r := by
  rcases filterEnvironmentLines_cases lines with ⟨h1, h2⟩ | ⟨_, _, _, _, _, _, _, h2⟩ | ⟨M, hM, h2⟩
  · rw [h2] at h
    injection h with h
    rw [← h]
    exact h2
  · rw [h2] at h
    cases h
  · rw [h2] at h
    injection h with h
    rw [← h]
    exact filterEnvironmentLines_of_noStart M hM

/-- Witness for C3 on the example of C1: the result `["b"]` is returned unchanged. -/
theorem filterEnvironmentLines_idempotent_witness :
    filterEnvironmentLines restartExample = some ["b".toList] ∧
    filterEnvironmentLines ["b".toList] = some ["b".toList] :=
  ⟨by decide, filterEnvironmentLines_idempotent restartExample ["b".toList] (by decide)⟩

/-- C10: `filterEnvironmentLines` faults (no result) exactly when the input is
`A ++ [s] ++ B` with `s` the first line containing the start sentinel and every line of `B`
that contains the end sentinel also containing the start sentinel; and whenever it
returns, the result is a contiguous sub-list of the input. -/
theorem filterEnvironmentLines_fault_iff (lines : List Str) :
    (filterEnvironmentLines lines = none ↔
      ∃ A s B, lines = A ++ s :: B ∧ (∀ a ∈ A, contains a startMarker = false) ∧
        contains s startMarker = true ∧
        (∀ b ∈ B, contains b endMarker = true → contains b startMarker = true)) ∧
    (∀ r, filterEnvironmentLines lines = some r → r <:+: lines) := by
  constructor
  · constructor
    · intro h
      rcases filterEnvironmentLines_cases lines with
        ⟨_, h2⟩ | ⟨A, s, B, e, hA, hs, hB, _⟩ | ⟨M, _, h2⟩
      · rw [h2] at h; cases h
      · exact ⟨A, s, B, e, hA, hs, hB⟩
      · rw [h2] at h; cases h
    · rintro ⟨A, s, B, e, hA, hs, hB⟩
      rw [e]
      exact filterEnvironmentLines_of_unclosed A B s hA hs hB
  · intro r h
    unfold filterEnvironmentLines at h
    simp only at h
    split at h
    · injection h with h
      exact h ▸ List.infix_refl lines
    · exact slice_contiguous _ _ _ _ h

/-- Instances of C10: a start line followed only by a line carrying both sentinels
faults; a closed window returns. -/
theorem filterEnvironmentLines_fault_iff_witness :
    filterEnvironmentLines ["START_ENV_CMD".toList, "START_ENV_CMD END_ENV_CMD".toList] = none ∧
    filterEnvironmentLines ["START_ENV_CMD".toList, "a".toList] = none ∧
    ["b".toList] <:+: restartExample :=
  ⟨by decide, by decide,
    (filterEnvironmentLines_fault_iff restartExample).2 ["b".toList] (by decide)⟩

/-! ## Facts about `cut` and `splitN` with a one-character separator -/

theorem cut_single_cons (c x : Char) (s : Str) :
    cut (x :: s) [c] =
      if c = x then some ([], s) else (cut s [c]).map (fun p => (x :: p.1, p.2)) := by
  by_cases h : c = x
  · subst h
    simp [cut]
  · simp [cut, h]

theorem cut_single_some (c : Char) (a b : Str) (h : c ∉ a) :
    cut (a ++ c :: b) [c] = some (a, b) := by
  induction a with
  | nil => simp [cut_single_cons]
  | cons x a ih =>
    have hx : c ≠ x := fun e => h (e ▸ List.mem_cons_self _ _)
    have ha : c ∉ a := fun e => h (List.mem_cons_of_mem _ e)
    rw [List.cons_append, cut_single_cons, if_neg hx, ih ha]
    rfl

theorem cut_single_inv (c : Char) (s a b : Str) (h : cut s [c] = some (a, b)) :
    s = a ++ c :: b ∧ c ∉ a := by
  induction s generalizing a with
  | nil => simp [cut] at h
  | cons x s ih =>
    rw [cut_single_cons] at h
    by_cases hx : c = x
    · rw [if_pos hx] at h
      injection h with h
      injection h with h1 h2
      subst h1 h2 hx
      simp
    · rw [if_neg hx] at h
      cases hc : cut s [c] with
      | none => rw [hc] at h; cases h
      | some p =>
        rw [hc] at h
        injection h with h
        injection h with h1 h2
        obtain ⟨e, hn⟩ := ih p.1 (by rw [hc, ← h2])
        subst h1
        refine ⟨by rw [List.cons_append, e], ?_⟩
        intro hm
        rcases List.mem_cons.mp hm with e2 | hm2
        · exact hx e2
        · exact hn hm2

/-- The fourth field exists exactly when the line has three spaces, and is then the text
after the third space. -/
theorem splitN_space_four (line out : Str) :
    (splitN line [' '] 4)[3]? = some out ↔
      ∃ f1 f2 f3 : Str, ' ' ∉ f1 ∧ ' ' ∉ f2 ∧ ' ' ∉ f3 ∧
        line = f1 ++ ' ' :: (f2 ++ ' ' :: (f3 ++ ' ' :: out)) := by
  constructor
  · intro h
    cases h1 : cut line [' '] with
    | none => simp [splitN, h1] at h
    | some p1 =>
      obtain ⟨a1, b1⟩ := p1
      cases h2 : cut b1 [' '] with
      | none => simp [splitN, h1, h2] at h
      | some p2 =>
        obtain ⟨a2, b2⟩ := p2
        cases h3 : cut b2 [' '] with
        | none => simp [splitN, h1, h2, h3] at h
        | some p3 =>
          obtain ⟨a3, b3⟩ := p3
          simp [splitN, h1, h2, h3] at h
          obtain ⟨e1, n1⟩ := cut_single_inv _ _ _ _ h1
          obtain ⟨e2, n2⟩ := cut_single_inv _ _ _ _ h2
          obtain ⟨e3, n3⟩ := cut_single_inv _ _ _ _ h3
          exact ⟨a1, a2, a3, n1, n2, n3, by rw [e1, e2, e3, h]⟩
  · rintro ⟨f1, f2, f3, n1, n2, n3, e⟩
    subst e
    simp [splitN, cut_single_some _ _ _ n1, cut_single_some _ _ _ n2, cut_single_some _ _ _ n3]

theorem lineEntry_eq_some_iff (line k v : Str) :
    lineEntry line = some (k, v) ↔
      ∃ r : EnvLine, r.WellFormed ∧ r.key = k ∧ r.value = v ∧ line = r.text := by
  constructor
  · intro h
    unfold lineEntry at h
    cases h3 : (splitN line " ".toList 4)[3]? with
    | none => rw [h3] at h; cases h
    | some out =>
      rw [h3] at h
      obtain ⟨f1, f2, f3, n1, n2, n3, e⟩ := (splitN_space_four line out).mp h3
      cases hc : cut out ['='] with
      | none => simp [splitN, show "=".toList = ['='] from rfl, hc] at h
      | some p =>
        obtain ⟨a, b⟩ := p
        simp [splitN, show "=".toList = ['='] from rfl, hc] at h
        obtain ⟨e2, n4⟩ := cut_single_inv _ _ _ _ hc
        refine ⟨⟨f1, f2, f3, a, b⟩, ⟨n1, n2, n3, n4⟩, h.1, h.2, ?_⟩
        rw [e, e2]
        rfl
  · rintro ⟨r, ⟨n1, n2, n3, n4⟩, rfl, rfl, e⟩
    have h3 : (splitN line " ".toList 4)[3]? = some (r.key ++ '=' :: r.value) :=
      (splitN_space_four line _).mpr ⟨r.f1, r.f2, r.f3, n1, n2, n3, e⟩
    unfold lineEntry
    rw [h3]
    simp [splitN, show "=".toList = ['='] from rfl, cut_single_some _ _ _ n4]

theorem extractLoop_cons (line : Str) (rest : List Str) (env : Env) :
    extractLoop (line :: rest) env =
      match lineEntry line with
      | none => none
      | some p => extractLoop rest (env.set p.1 p.2) := by
  unfold lineEntry
  rw [extractLoop]
  cases (splitN line " ".toList 4)[3]? with
  | none => rfl
  | some out =>
    simp only
    cases (splitN out "=".toList 2)[0]? <;> cases (splitN out "=".toList 2)[1]? <;> rfl

theorem extractLoop_wellFormed (rs : List EnvLine) (env : Env)
    (h : ∀ r ∈ rs, r.WellFormed) :
    extractLoop (rs.map EnvLine.text) env =
      some (rs.foldl (fun e r => e.set r.key r.value) env) := by
  induction rs generalizing env with
  | nil => rfl
  | cons r rs ih =>
    have hr : lineEntry r.text = some (r.key, r.value) :=
      (lineEntry_eq_some_iff _ _ _).mpr ⟨r, h r (List.mem_cons_self _ _), rfl, rfl, rfl⟩
    rw [List.map_cons, extractLoop_cons, hr]
    exact ih _ (fun x hx => h x (List.mem_cons_of_mem _ hx))

theorem foldl_set_apply (rs : List EnvLine) (env : Env) (k : Str) :
    (rs.foldl (fun e r => e.set r.key r.value) env) k =
      ((rs.reverse.map (fun r => (r.key, r.value))).lookup k).or (env k) := by
  induction rs generalizing env with
  | nil => simp
  | cons r rs ih =>
    rw [List.foldl_cons, ih, List.reverse_cons, List.map_append, List.lookup_append]
    cases List.lookup k (List.map (fun r => (r.key, r.value)) rs.reverse) with
    | some v => simp
    | none =>
      by_cases hk : k = r.key
      · simp [Env.set, hk, List.lookup]
      · have hb : (k == r.key) = false := by simpa using hk
        simp [Env.set, hk, List.lookup, hb]

theorem extractLoop_isSome_iff (lines : List Str) (env : Env) :
    (extractLoop lines env).isSome = true ↔
      ∀ l ∈ lines, ∃ r : EnvLine, r.WellFormed ∧ l = r.text := by
  induction lines generalizing env with
  | nil => simp [extractLoop]
  | cons l lines ih =>
    rw [extractLoop_cons]
    cases hl : lineEntry l with
    | none =>
      simp only [Option.isSome_none, Bool.false_eq_true, false_iff]
      intro hall
      obtain ⟨r, hr, e⟩ := hall l (List.mem_cons_self _ _)
      have := (lineEntry_eq_some_iff l r.key r.value).mpr ⟨r, hr, rfl, rfl, e⟩
      rw [hl] at this
      cases this
    | some p =>
      obtain ⟨r, hr, _, _, e⟩ := (lineEntry_eq_some_iff l p.1 p.2).mp hl
      simp only
      rw [ih]
      constructor
      · intro hall x hx
        rcases List.mem_cons.mp hx with rfl | hx2
        · exact ⟨r, hr, e⟩
        · exact hall x hx2
      · intro hall x hx
        exact hall x (List.mem_cons_of_mem _ hx)

/-! ## Claims about `extractEnvironment` -/

/-- C4: on lines `f1 f2 f3 K=V` (single spaces, no space in `f1`, `f2`, `f3`, no `=` in
`K`), `extractEnvironment` returns a map that sends each key to the value of the last line
carrying it, whose key set is exactly the set of the `K`s, and, when the keys are pairwise
distinct, sends the key of every line to that line's value. -/
theorem extractEnvironment_wellFormed (rs : List EnvLine) (h : ∀ r ∈ rs, r.WellFormed) :
    ∃ env : Env, extractEnvironment (rs.map EnvLine.text) = some env ∧
      (∀ k, env k = (rs.reverse.map (fun r => (r.key, r.value))).lookup k) ∧
      (∀ k, (env k).isSome = true ↔ k ∈ rs.map EnvLine.key) ∧
      ((rs.map EnvLine.key).Nodup → ∀ r ∈ rs, env r.key = some r.value) := by
  have hlook : ∀ k, (rs.foldl (fun e r => e.set r.key r.value) Env.empty) k =
      (rs.reverse.map (fun r => (r.key, r.value))).lookup k := by
    intro k
    rw [foldl_set_apply]
    simp [Env.empty]
  refine ⟨_, extractLoop_wellFormed rs Env.empty h, hlook, ?_, ?_⟩
  · intro k
    rw [hlook, List.lookup_isSome_iff]
    simp only [List.mem_map, List.mem_reverse, beq_iff_eq]
    constructor
    · rintro ⟨p, ⟨r, hr, rfl⟩, e⟩
      exact ⟨r, hr, e.symm⟩
    · rintro ⟨r, hr, e⟩
      exact ⟨_, ⟨r, hr, rfl⟩, e.symm⟩
  · intro hnd r hr
    rw [hlook, List.lookup_eq_some_iff]
    obtain ⟨l1, l2, e⟩ := List.append_of_mem (List.mem_reverse.mpr hr)
    refine ⟨l1.map (fun r => (r.key, r.value)), l2.map (fun r => (r.key, r.value)),
      by rw [e]; simp, ?_⟩
    intro p hp
    obtain ⟨q, hq, rfl⟩ := List.mem_map.mp hp
    have hnd2 : (rs.reverse.map EnvLine.key).Nodup := by
      rw [List.map_reverse]
      exact List.nodup_reverse.mpr hnd
    rw [e, List.map_append, List.map_cons] at hnd2
    have hdis := (List.nodup_append.mp hnd2).2.2
    have h1 : q.key ∈ l1.map EnvLine.key := List.mem_map.mpr ⟨q, hq, rfl⟩
    simp only [bne_iff_ne, ne_eq]
    intro e2
    exact hdis h1 (by rw [← e2]; exact List.mem_cons_self _ _)

/-- Witness for C4: two lines for `A` and one for `B`, the value containing `=` and a
space; the later line for `A` wins. -/
theorem extractEnvironment_wellFormed_witness :
    ∃ env : Env,
      extractEnvironment (([⟨"t".toList, "[S]".toList, "OUT".toList, "A".toList, "1".toList⟩,
        ⟨"t".toList, "[S]".toList, "OUT".toList, "B".toList, "x=y z".toList⟩,
        ⟨"t".toList, "[S]".toList, "OUT".toList, "A".toList, "2".toList⟩] :
          List EnvLine).map EnvLine.text) = some env ∧
      env "A".toList = some "2".toList ∧ env "B".toList = some "x=y z".toList := by
  obtain ⟨env, h1, h2, _, _⟩ := extractEnvironment_wellFormed
    [⟨"t".toList, "[S]".toList, "OUT".toList, "A".toList, "1".toList⟩,
      ⟨"t".toList, "[S]".toList, "OUT".toList, "B".toList, "x=y z".toList⟩,
      ⟨"t".toList, "[S]".toList, "OUT".toList, "A".toList, "2".toList⟩] (by decide)
  exact ⟨env, h1, by rw [h2]; decide, by rw [h2]; decide⟩

/-- C5 (as stated, refuted): the empty string left by splitting output on a newline, and a
line whose fourth field has no `=`, are not skipped: `extractEnvironment` aborts on a list
containing one, although the remaining well-formed lines alone give a snapshot. -/
theorem extractEnvironment_malformed_aborts :
    (extractEnvironment ["t [S] OUT LANG=en".toList, "".toList]).isSome = false ∧
    (extractEnvironment ["t [S] OUT LANG=en".toList, "t [S] OUT novalue".toList]).isSome = false ∧
    (extractEnvironment ["t [S] OUT LANG=en".toList]).isSome = true := by
  decide

/-- C5 (amended): `extractEnvironment` returns a snapshot if and only if every line has the
four-field shape `f1 f2 f3 K=V` (three single spaces, then a field containing `=`); a line
without that shape is not skipped but aborts the extraction. -/
theorem extractEnvironment_returns_iff (lines : List Str) :
    (extractEnvironment lines).isSome = true ↔
      ∀ l ∈ lines, ∃ r : EnvLine, r.WellFormed ∧ l = r.text :=
  extractLoop_isSome_iff lines Env.empty

set_option maxRecDepth 100000 in
/-- C9 (the code at the failing inputs): a line whose fields are separated by two spaces,
which the task-log pattern accepts, is stored under the key `OUT LANG` instead of `LANG`;
a line whose first separator is a tab aborts the extraction. -/
theorem extractEnvironment_whitespace_runs :
    matchString ptn
      "2017-03-01T10:00:00.00+0000 [APP/TASK/get-env/0]  OUT LANG=en_US.UTF-8".toList = true ∧
    (extractEnvironment
      ["2017-03-01T10:00:00.00+0000 [APP/TASK/get-env/0]  OUT LANG=en_US.UTF-8".toList]).map
        (fun env => (env "LANG".toList, env "OUT LANG".toList)) =
      some (none, some "en_US.UTF-8".toList) ∧
    (extractEnvironment
      ["2017-03-01T10:00:00.00+0000\t[APP/TASK/get-env/0] OUT LANG=en_US.UTF-8".toList]).isSome
      = false := by
  decide

/-! ## The JSON scanner accepts exactly the grammar -/

theorem float64Overflows_eq_false_iff (m : Nat) (e : Int) :
    float64Overflows m e = false ↔ FitsFloat64 m e := by
  have hT : ((2 ^ 1024 - 2 ^ 970 : Nat) : ℚ) = 2 ^ 1024 - 2 ^ 970 := by
    rw [Nat.cast_sub (Nat.pow_le_pow_right (by decide) (by decide))]
    simp only [Nat.cast_pow, Nat.cast_ofNat]
  unfold float64Overflows FitsFloat64
  by_cases he : 0 ≤ e
  · rw [if_pos he]
    obtain ⟨n, rfl⟩ := Int.eq_ofNat_of_zero_le he
    simp only [Int.toNat_ofNat, zpow_natCast, decide_eq_false_iff_not, not_le]
    rw [← hT]
    have : (m : ℚ) * (10 : ℚ) ^ n = ((m * 10 ^ n : Nat) : ℚ) := by push_cast; rfl
    rw [this, Nat.cast_lt]
  · rw [if_neg he]
    obtain ⟨n, hn⟩ : ∃ n : Nat, e = -(n : Int) := ⟨(-e).toNat, by omega⟩
    subst hn
    simp only [neg_neg, Int.toNat_ofNat, zpow_neg, zpow_natCast, decide_eq_false_iff_not, not_le]
    have hpos : (0 : ℚ) < (10 : ℚ) ^ n := by positivity
    rw [← div_eq_mul_inv, div_lt_iff₀ hpos, ← hT]
    have : ((2 ^ 1024 - 2 ^ 970 : Nat) : ℚ) * (10 : ℚ) ^ n
        = (((2 ^ 1024 - 2 ^ 970) * 10 ^ n : Nat) : ℚ) := by
      rw [Nat.cast_mul, Nat.cast_pow, Nat.cast_ofNat]
    rw [this, Nat.cast_lt]

theorem skipSpace_spaces (ws s : Str) (h : IsSpaces ws) : skipSpace (ws ++ s) = skipSpace s := by
  induction ws with
  | nil => rfl
  | cons c ws ih =>
    rw [List.cons_append, skipSpace, if_pos (h c (List.mem_cons_self _ _))]
    exact ih (fun d hd => h d (List.mem_cons_of_mem _ hd))

theorem skipSpace_cons (c : Char) (s : Str) (h : isJsonSpace c = false) :
    skipSpace (c :: s) = c :: s := by
  rw [skipSpace, h]
  rfl

theorem skipSpace_split (s : Str) : ∃ ws, s = ws ++ skipSpace s ∧ IsSpaces ws := by
  induction s with
  | nil => exact ⟨[], rfl, fun c hc => by cases hc⟩
  | cons c s ih =>
    by_cases hc : isJsonSpace c = true
    · obtain ⟨ws, e, hws⟩ := ih
      refine ⟨c :: ws, ?_, ?_⟩
      · rw [skipSpace, if_pos hc, List.cons_append, ← e]
      · intro d hd
        rcases List.mem_cons.mp hd with rfl | hd2
        · exact hc
        · exact hws d hd2
    · refine ⟨[], ?_, fun c hc => by cases hc⟩
      rw [skipSpace, if_neg hc]
      rfl

theorem skipSpace_head (s : Str) (c : Char) (r : Str) (h : skipSpace s = c :: r) :
    isJsonSpace c = false := by
  induction s with
  | nil => simp [skipSpace] at h
  | cons x s ih =>
    rw [skipSpace] at h
    by_cases hx : isJsonSpace x = true
    · rw [if_pos hx] at h
      exact ih h
    · rw [if_neg hx] at h
      injection h with h1 _
      rw [← h1]
      simpa using hx

theorem isSpaces_of_skipSpace (s : Str) (h : (skipSpace s).isEmpty = true) : IsSpaces s := by
  obtain ⟨ws, e, hws⟩ := skipSpace_split s
  have : skipSpace s = [] := List.isEmpty_iff.mp h
  rw [this, List.append_nil] at e
  rw [e]
  exact hws

theorem skipSpace_of_isSpaces (s : Str) (h : IsSpaces s) : skipSpace s = [] := by
  have := skipSpace_spaces s [] h
  rw [List.append_nil] at this
  rw [this]
  rfl

theorem scanString_cons (c : Char) (r : Str) :
    scanString (c :: r) =
      if c == '"' then some r
      else if c == '\\' then
        match r with
        | [] => none
        | e :: r2 =>
          if e == 'u' then
            match r2 with
            | h1 :: h2 :: h3 :: h4 :: r3 =>
              if isHexDigit h1 && isHexDigit h2 && isHexDigit h3 && isHexDigit h4 then
                scanString r3
              else none
            | _ => none
          else if isEscapeChar e then scanString r2
          else none
      else if c.toNat < 32 then none
      else scanString r := by
  rw [scanString.eq_def]
  rfl

theorem scanString_sound (n : Nat) (s r : Str) (hn : s.length ≤ n)
    (h : scanString s = some r) : ∃ body, s = body ++ r ∧ StringBody body := by
  induction n generalizing s with
  | zero =>
    have : s = [] := List.length_eq_zero.mp (Nat.le_zero.mp hn)
    subst this
    simp [scanString] at h
  | succ n ih =>
    cases s with
    | nil => simp [scanString] at h
    | cons c t =>
      rw [scanString_cons] at h
      split at h
      · next hq =>
        injection h with h
        have : c = '"' := by simpa using hq
        subst this h
        exact ⟨['"'], rfl, StringBody.close⟩
      · next hq =>
        have hq2 : c ≠ '"' := by simpa using hq
        split at h
        · next hb =>
          have hb2 : c = '\\' := by simpa using hb
          subst hb2
          cases t with
          | nil => cases h
          | cons e t2 =>
            simp only at h
            split at h
            · next hu =>
              have hu2 : e = 'u' := by simpa using hu
              subst hu2
              split at h
              · next h1 h2 h3 h4 r3 =>
                split at h
                · next hh =>
                  simp only [Bool.and_eq_true] at hh
                  obtain ⟨body, e1, hb1⟩ := ih r3 (by simp at hn ⊢; omega) h
                  exact ⟨'\\' :: 'u' :: h1 :: h2 :: h3 :: h4 :: body, by rw [e1]; rfl,
                    StringBody.unicode _ _ _ _ _ hh.1.1.1 hh.1.1.2 hh.1.2 hh.2 hb1⟩
                · cases h
              · cases h
            · next hu =>
              have hu2 : e ≠ 'u' := by simpa using hu
              split at h
              · next he =>
                obtain ⟨body, e1, hb1⟩ := ih t2 (by simp at hn ⊢; omega) h
                exact ⟨'\\' :: e :: body, by rw [e1]; rfl, StringBody.escape _ _ hu2 he hb1⟩
              · cases h
        · next hb =>
          have hb2 : c ≠ '\\' := by simpa using hb
          split at h
          · cases h
          · next hlt =>
            obtain ⟨body, e1, hb1⟩ := ih t (by simp at hn ⊢; omega) h
            exact ⟨c :: body, by rw [e1]; rfl,
              StringBody.plain _ _ hq2 hb2 (by omega) hb1⟩

theorem scanString_complete (body rest : Str) (h : StringBody body) :
    scanString (body ++ rest) = some rest := by
  induction h with
  | close =>
    rw [List.cons_append, scanString_cons]
    rfl
  | plain c t hq hb hge _ ih =>
    rw [List.cons_append, scanString_cons]
    have h1 : (c == '"') = false := by simpa using hq
    have h2 : (c == '\\') = false := by simpa using hb
    have h3 : ¬ c.toNat < 32 := by omega
    simp only [h1, h2, h3, Bool.false_eq_true, if_false]
    exact ih
  | escape e t hu he _ ih =>
    have h1 : (e == 'u') = false := by simpa using hu
    rw [List.cons_append, List.cons_append, scanString_cons]
    simp only [h1, he, Bool.false_eq_true, if_false, if_true]
    exact ih
  | unicode h1 h2 h3 h4 t a1 a2 a3 a4 _ ih =>
    simp only [List.cons_append]
    rw [scanString_cons]
    simp only [a1, a2, a3, a4, Bool.and_self, if_true]
    exact ih

theorem takeDigits_eq (s : Str) : s = (takeDigits s).1 ++ (takeDigits s).2 := by
  induction s with
  | nil => rfl
  | cons c s ih =>
    rw [takeDigits]
    split
    · simp only [List.cons_append]
      rw [← ih]
    · rfl

theorem takeDigits_digits (s : Str) : IsDigits (takeDigits s).1 := by
  induction s with
  | nil => intro c hc; cases hc
  | cons c s ih =>
    rw [takeDigits]
    split
    · next hc =>
      intro d hd
      rcases List.mem_cons.mp hd with rfl | hd2
      · exact hc
      · exact ih d hd2
    · intro d hd; cases hd

theorem takeDigits_append (ds rest : Str) (hd : IsDigits ds) (hr : NoDigitAhead rest) :
    takeDigits (ds ++ rest) = (ds, rest) := by
  induction ds with
  | nil =>
    cases rest with
    | nil => rfl
    | cons c t =>
      rw [List.nil_append, takeDigits, hr c t rfl]
      rfl
  | cons d ds ih =>
    rw [List.cons_append, takeDigits, if_pos (hd d (List.mem_cons_self _ _)),
      ih (fun c hc => hd c (List.mem_cons_of_mem _ hc))]

theorem finishNumber_eq_some_iff (m : Nat) (e : Int) (rest r : Str) :
    finishNumber m e rest = some r ↔ FitsFloat64 m e ∧ r = rest := by
  unfold finishNumber
  rw [← float64Overflows_eq_false_iff]
  cases float64Overflows m e
  · simp [eq_comm]
  · simp

theorem digit_ne (d c : Char) (hd : isDecimalDigit d = true) (hc : isDecimalDigit c = false) :
    d ≠ c := by
  intro e
  rw [e, hc] at hd
  cases hd

theorem scanExponent_sound (ds : Str) (fl : Nat) (s r : Str)
    (h : scanExponent ds fl s = some r) :
    ∃ (ex : Str) (e : Int), s = ex ++ r ∧ ExponentPart ex e ∧
      FitsFloat64 (digitsValue ds) (e - (fl : Int)) := by
  cases s with
  | nil =>
    rw [scanExponent, finishNumber_eq_some_iff] at h
    refine ⟨[], 0, by rw [h.2]; rfl, ExponentPart.absent, ?_⟩
    rw [zero_sub]
    exact h.1
  | cons c t =>
    rw [scanExponent] at h
    split at h
    · next hc =>
      have hc2 : c = 'e' ∨ c = 'E' := by simpa using hc
      split at h
      · cases h
      · next hne =>
        rw [finishNumber_eq_some_iff] at h
        obtain ⟨hfit, hr⟩ := h
        have hne2 : (takeDigits (dropSign t)).1 ≠ [] := by
          intro e0
          rw [e0] at hne
          exact hne rfl
        have hdig := takeDigits_digits (dropSign t)
        have heq := takeDigits_eq (dropSign t)
        rw [← hr] at heq
        cases t with
        | nil => exact absurd rfl hne2
        | cons d t2 =>
          by_cases hm : d = '-'
          · subst hm
            have e1 : dropSign ('-' :: t2) = t2 := rfl
            have e2 : signedExponent ('-' :: t2) (takeDigits t2).1
                = -(exponentValue (takeDigits t2).1 : Int) := rfl
            rw [e1] at heq hne2 hdig hfit
            rw [e2] at hfit
            exact ⟨c :: '-' :: (takeDigits t2).1, _, by
              simp only [List.cons_append]; rw [← heq],
              ExponentPart.minus c _ hc2 hne2 hdig, hfit⟩
          · by_cases hp : d = '+'
            · subst hp
              have e1 : dropSign ('+' :: t2) = t2 := rfl
              have e2 : signedExponent ('+' :: t2) (takeDigits t2).1
                  = (exponentValue (takeDigits t2).1 : Int) := rfl
              rw [e1] at heq hne2 hdig hfit
              rw [e2] at hfit
              exact ⟨c :: '+' :: (takeDigits t2).1, _, by
                simp only [List.cons_append]; rw [← heq],
                ExponentPart.plus c _ hc2 hne2 hdig, hfit⟩
            · have e1 : dropSign (d :: t2) = d :: t2 := by
                simp [dropSign, hm, hp]
              have e2 : ∀ es, signedExponent (d :: t2) es = (exponentValue es : Int) := by
                intro es
                simp [signedExponent, startsWithMinus, hm]
              rw [e1] at heq hne2 hdig hfit
              rw [e2] at hfit
              exact ⟨c :: (takeDigits (d :: t2)).1, _, by
                simp only [List.cons_append]; rw [← heq],
                ExponentPart.unsigned c _ hc2 hne2 hdig, hfit⟩
    · rw [finishNumber_eq_some_iff] at h
      refine ⟨[], 0, by rw [h.2]; rfl, ExponentPart.absent, ?_⟩
      rw [zero_sub]
      exact h.1

theorem scanFraction_sound (ds s r : Str) (h : scanFraction ds s = some r) :
    ∃ (frac fs ex : Str) (e : Int), s = frac ++ (ex ++ r) ∧ FractionPart frac fs ∧
      ExponentPart ex e ∧ FitsFloat64 (digitsValue (ds ++ fs)) (e - (fs.length : Int)) := by
  cases s with
  | nil =>
    rw [scanFraction] at h
    obtain ⟨ex, e, e1, hex, hfit⟩ := scanExponent_sound _ _ _ _ h
    exact ⟨[], [], ex, e, e1, FractionPart.absent, hex, by simpa using hfit⟩
  | cons c t =>
    rw [scanFraction] at h
    split at h
    · next hc =>
      have hc2 : c = '.' := by simpa using hc
      subst hc2
      split at h
      · cases h
      · next hne =>
        have hne2 : (takeDigits t).1 ≠ [] := by
          intro e0
          rw [e0] at hne
          exact hne rfl
        obtain ⟨ex, e, e1, hex, hfit⟩ := scanExponent_sound _ _ _ _ h
        refine ⟨'.' :: (takeDigits t).1, (takeDigits t).1, ex, e, ?_,
          FractionPart.present _ hne2 (takeDigits_digits t), hex, hfit⟩
        rw [List.cons_append, ← e1, ← takeDigits_eq]
    · obtain ⟨ex, e, e1, hex, hfit⟩ := scanExponent_sound _ _ _ _ h
      exact ⟨[], [], ex, e, e1, FractionPart.absent, hex, by simpa using hfit⟩

theorem scanUnsigned_sound (s r : Str) (h : scanUnsigned s = some r) :
    ∃ (int frac fs ex : Str) (e : Int), s = int ++ (frac ++ (ex ++ r)) ∧ IntegerPart int ∧
      FractionPart frac fs ∧ ExponentPart ex e ∧
      FitsFloat64 (digitsValue (int ++ fs)) (e - (fs.length : Int)) := by
  cases s with
  | nil => cases h
  | cons c t =>
    rw [scanUnsigned] at h
    split at h
    · next hc =>
      have hc2 : c = '0' := by simpa using hc
      subst hc2
      obtain ⟨frac, fs, ex, e, e1, hfr, hex, hfit⟩ := scanFraction_sound _ _ _ h
      exact ⟨['0'], frac, fs, ex, e, by rw [e1]; rfl, IntegerPart.zero, hfr, hex, hfit⟩
    · next hc =>
      have hc2 : c ≠ '0' := by simpa using hc
      split at h
      · next hd =>
        obtain ⟨frac, fs, ex, e, e1, hfr, hex, hfit⟩ := scanFraction_sound _ _ _ h
        refine ⟨c :: (takeDigits t).1, frac, fs, ex, e, ?_,
          IntegerPart.nonzero c _ hc2 hd (takeDigits_digits t), hfr, hex, hfit⟩
        rw [List.cons_append, ← e1, ← takeDigits_eq]
      · cases h

theorem scanNumber_sound (s r : Str) (h : scanNumber s = some r) :
    ∃ x, s = x ++ r ∧ JsonNumber x := by
  cases s with
  | nil => cases h
  | cons c t =>
    rw [scanNumber] at h
    split at h
    · next hc =>
      have hc2 : c = '-' := by simpa using hc
      subst hc2
      obtain ⟨int, frac, fs, ex, e, e1, hi, hfr, hex, hfit⟩ := scanUnsigned_sound _ _ h
      refine ⟨'-' :: (int ++ (frac ++ ex)), ?_, ['-'], int, frac, fs, ex, e, rfl,
        Or.inr rfl, hi, hfr, hex, hfit⟩
      rw [e1]
      simp
    · obtain ⟨int, frac, fs, ex, e, e1, hi, hfr, hex, hfit⟩ := scanUnsigned_sound _ _ h
      refine ⟨int ++ (frac ++ ex), ?_, [], int, frac, fs, ex, e, rfl,
        Or.inl rfl, hi, hfr, hex, hfit⟩
      rw [e1]
      simp

theorem numberEnd_of_delimited (rest : Str) (h : Delimited rest) : NumberEnd rest := by
  intro c t e
  have hc := h c t e
  have hs : isJsonSpace c = true → ((c = ' ' ∨ c = '\t') ∨ c = '\r') ∨ c = '\n' := by
    intro h1
    simpa [isJsonSpace] using h1
  rcases hc with h1 | h1 | h1 | h1
  · rcases hs h1 with ((h2 | h2) | h2) | h2 <;> subst h2 <;> decide
  · subst h1; decide
  · subst h1; decide
  · subst h1; decide

theorem exponentPart_head (ex : Str) (e : Int) (h : ExponentPart ex e) :
    ex = [] ∨ ∃ c t, ex = c :: t ∧ (c = 'e' ∨ c = 'E') := by
  cases h with
  | absent => exact Or.inl rfl
  | unsigned c es hc _ _ => exact Or.inr ⟨c, _, rfl, hc⟩
  | plus c es hc _ _ => exact Or.inr ⟨c, _, rfl, hc⟩
  | minus c es hc _ _ => exact Or.inr ⟨c, _, rfl, hc⟩

theorem exponent_ahead (ex rest : Str) (e : Int) (h : ExponentPart ex e) (hr : NumberEnd rest) :
    ∀ c t, ex ++ rest = c :: t → isDecimalDigit c = false ∧ c ≠ '.' := by
  intro c t e1
  rcases exponentPart_head ex e h with h1 | ⟨d, u, h1, hd⟩
  · rw [h1, List.nil_append] at e1
    exact ⟨(hr c t e1).1, (hr c t e1).2.1⟩
  · rw [h1, List.cons_append] at e1
    injection e1 with e2 _
    subst e2
    rcases hd with hd | hd <;> subst hd <;> decide

theorem fraction_ahead (frac fs ex rest : Str) (e : Int) (hf : FractionPart frac fs)
    (h : ExponentPart ex e) (hr : NumberEnd rest) : NoDigitAhead (frac ++ (ex ++ rest)) := by
  intro c t e1
  cases hf with
  | absent => exact (exponent_ahead ex rest e h hr c t e1).1
  | present fs _ _ =>
    rw [List.cons_append] at e1
    injection e1 with e2 _
    subst e2
    decide

theorem scanExponent_plain (ds : Str) (fl : Nat) (rest : Str) (hr : NumberEnd rest)
    (hfit : FitsFloat64 (digitsValue ds) (-(fl : Int))) :
    scanExponent ds fl rest = some rest := by
  cases rest with
  | nil =>
    rw [scanExponent, finishNumber_eq_some_iff]
    exact ⟨hfit, rfl⟩
  | cons c t =>
    have hc := hr c t rfl
    have h1 : (c == 'e' || c == 'E') = false := by simp [hc.2.2.1, hc.2.2.2]
    rw [scanExponent, h1]
    simp only [Bool.false_eq_true, if_false]
    rw [finishNumber_eq_some_iff]
    exact ⟨hfit, rfl⟩

theorem dropSign_digit (d : Char) (t : Str) (hd : isDecimalDigit d = true) :
    dropSign (d :: t) = d :: t ∧ startsWithMinus (d :: t) = false := by
  have h1 : d ≠ '-' := digit_ne d '-' hd (by decide)
  have h2 : d ≠ '+' := digit_ne d '+' hd (by decide)
  simp [dropSign, startsWithMinus, h1, h2]

theorem scanExponent_complete (ds : Str) (fl : Nat) (ex rest : Str) (e : Int)
    (h : ExponentPart ex e) (hfit : FitsFloat64 (digitsValue ds) (e - (fl : Int)))
    (hr : NumberEnd rest) : scanExponent ds fl (ex ++ rest) = some rest := by
  have hnd : NoDigitAhead rest := fun c t e1 => (hr c t e1).1
  cases h with
  | absent =>
    rw [zero_sub] at hfit
    exact scanExponent_plain ds fl rest hr hfit
  | unsigned c es hc hne hdig =>
    have h1 : (c == 'e' || c == 'E') = true := by rcases hc with hc | hc <;> subst hc <;> rfl
    cases es with
    | nil => exact absurd rfl hne
    | cons d es2 =>
      have hd := hdig d (List.mem_cons_self _ _)
      obtain ⟨e1, e2⟩ := dropSign_digit d (es2 ++ rest) hd
      rw [List.cons_append, scanExponent, h1]
      simp only [if_true]
      have e3 : (d :: es2) ++ rest = d :: (es2 ++ rest) := rfl
      rw [e3, e1, ← e3, takeDigits_append _ _ hdig hnd]
      simp only [List.isEmpty_cons, Bool.false_eq_true, if_false]
      rw [finishNumber_eq_some_iff]
      refine ⟨?_, rfl⟩
      have : signedExponent (d :: es2 ++ rest) (d :: es2) = (exponentValue (d :: es2) : Int) := by
        unfold signedExponent
        rw [e3, e2]
        rfl
      rw [this]
      exact hfit
  | plus c es hc hne hdig =>
    have h1 : (c == 'e' || c == 'E') = true := by rcases hc with hc | hc <;> subst hc <;> rfl
    cases es with
    | nil => exact absurd rfl hne
    | cons d es2 =>
      simp only [List.cons_append]
      rw [scanExponent, h1]
      simp only [if_true]
      have e1 : dropSign ('+' :: d :: (es2 ++ rest)) = (d :: es2) ++ rest := rfl
      rw [e1, takeDigits_append _ _ hdig hnd]
      simp only [List.isEmpty_cons, Bool.false_eq_true, if_false]
      rw [finishNumber_eq_some_iff]
      exact ⟨hfit, rfl⟩
  | minus c es hc hne hdig =>
    have h1 : (c == 'e' || c == 'E') = true := by rcases hc with hc | hc <;> subst hc <;> rfl
    cases es with
    | nil => exact absurd rfl hne
    | cons d es2 =>
      simp only [List.cons_append]
      rw [scanExponent, h1]
      simp only [if_true]
      have e1 : dropSign ('-' :: d :: (es2 ++ rest)) = (d :: es2) ++ rest := rfl
      rw [e1, takeDigits_append _ _ hdig hnd]
      simp only [List.isEmpty_cons, Bool.false_eq_true, if_false]
      rw [finishNumber_eq_some_iff]
      exact ⟨hfit, rfl⟩

theorem scanFraction_complete (ds frac fs ex rest : Str) (e : Int)
    (hf : FractionPart frac fs) (h : ExponentPart ex e)
    (hfit : FitsFloat64 (digitsValue (ds ++ fs)) (e - (fs.length : Int)))
    (hr : NumberEnd rest) : scanFraction ds (frac ++ (ex ++ rest)) = some rest := by
  cases hf with
  | absent =>
    rw [List.append_nil] at hfit
    have hfit2 : FitsFloat64 (digitsValue ds) (e - ((0 : Nat) : Int)) := by simpa using hfit
    have key := scanExponent_complete ds 0 ex rest e h hfit2 hr
    rw [List.nil_append]
    cases hx : ex ++ rest with
    | nil =>
      rw [hx] at key
      rw [scanFraction]
      exact key
    | cons c t =>
      rw [hx] at key
      have hc := (exponent_ahead ex rest e h hr c t hx).2
      have h1 : (c == '.') = false := by simpa using hc
      rw [scanFraction, h1]
      simp only [Bool.false_eq_true, if_false]
      exact key
  | present fs hne hdig =>
    have hnd : NoDigitAhead (ex ++ rest) := fun c t e1 => (exponent_ahead ex rest e h hr c t e1).1
    rw [List.cons_append, scanFraction]
    simp only [beq_self_eq_true, if_true]
    rw [takeDigits_append _ _ hdig hnd]
    cases fs with
    | nil => exact absurd rfl hne
    | cons d fs2 =>
      simp only [List.isEmpty_cons, Bool.false_eq_true, if_false]
      exact scanExponent_complete _ _ ex rest e h hfit hr

theorem scanUnsigned_complete (int frac fs ex rest : Str) (e : Int)
    (hi : IntegerPart int) (hf : FractionPart frac fs) (h : ExponentPart ex e)
    (hfit : FitsFloat64 (digitsValue (int ++ fs)) (e - (fs.length : Int)))
    (hr : NumberEnd rest) : scanUnsigned (int ++ (frac ++ (ex ++ rest))) = some rest := by
  cases hi with
  | zero =>
    rw [List.cons_append, scanUnsigned]
    simp only [beq_self_eq_true, if_true, List.nil_append]
    exact scanFraction_complete _ frac fs ex rest e hf h hfit hr
  | nonzero d ds hd0 hd hdig =>
    have h1 : (d == '0') = false := by simpa using hd0
    rw [List.cons_append, scanUnsigned, h1]
    simp only [Bool.false_eq_true, if_false, hd, if_true]
    rw [takeDigits_append _ _ hdig (fraction_ahead frac fs ex rest e hf h hr)]
    exact scanFraction_complete _ frac fs ex rest e hf h hfit hr

theorem integerPart_head (int : Str) (h : IntegerPart int) :
    ∃ d t, int = d :: t ∧ isDecimalDigit d = true := by
  cases h with
  | zero => exact ⟨'0', [], rfl, by decide⟩
  | nonzero d ds _ hd _ => exact ⟨d, ds, rfl, hd⟩

theorem scanNumber_complete (x rest : Str) (h : JsonNumber x) (hr : NumberEnd rest) :
    scanNumber (x ++ rest) = some rest := by
  obtain ⟨sign, int, frac, fs, ex, e, e1, hs, hi, hf, hex, hfit⟩ := h
  have key := scanUnsigned_complete int frac fs ex rest e hi hf hex hfit hr
  rcases hs with hs | hs
  · obtain ⟨d, t, e2, hd⟩ := integerPart_head int hi
    have e3 : x ++ rest = d :: (t ++ (frac ++ (ex ++ rest))) := by
      rw [e1, hs, e2]
      simp
    have e4 : int ++ (frac ++ (ex ++ rest)) = d :: (t ++ (frac ++ (ex ++ rest))) := by
      rw [e2]
      rfl
    have h1 : (d == '-') = false := by simpa using digit_ne d '-' hd (by decide)
    rw [e3, scanNumber, h1]
    simp only [Bool.false_eq_true, if_false]
    rw [← e4]
    exact key
  · have e3 : x ++ rest = '-' :: (int ++ (frac ++ (ex ++ rest))) := by
      rw [e1, hs]
      simp
    rw [e3, scanNumber]
    simp only [beq_self_eq_true, if_true]
    exact key

theorem dropLiteral_eq (w s r : Str) (h : dropLiteral w s = some r) : s = w ++ r := by
  unfold dropLiteral at h
  split at h
  · next hp =>
    injection h with h
    obtain ⟨t, e⟩ := List.isPrefixOf_iff_prefix.mp hp
    rw [← e] at h
    rw [List.drop_left] at h
    rw [← e, h]
  · cases h

theorem dropLiteral_append (w rest : Str) : dropLiteral w (w ++ rest) = some rest := by
  unfold dropLiteral
  rw [if_pos (List.isPrefixOf_iff_prefix.mpr (List.prefix_append _ _)), List.drop_left]

theorem closes_sound (c : Char) (s r : Str) (h : closes c s = some r) :
    ∃ ws, s = ws ++ c :: r ∧ IsSpaces ws := by
  unfold closes at h
  obtain ⟨ws, e, hws⟩ := skipSpace_split s
  split at h
  · cases h
  · next d t heq =>
    split at h
    · next hd =>
      injection h with h
      have : d = c := by simpa using hd
      subst this h
      exact ⟨ws, by rw [← heq]; exact e, hws⟩
    · cases h

theorem closes_complete (c : Char) (ws rest : Str) (hws : IsSpaces ws)
    (hc : isJsonSpace c = false) : closes c (ws ++ c :: rest) = some rest := by
  unfold closes
  rw [skipSpace_spaces _ _ hws, skipSpace_cons _ _ hc]
  simp

theorem closes_other (c d : Char) (ws t : Str) (hws : IsSpaces ws) (hd : isJsonSpace d = false)
    (hne : d ≠ c) : closes c (ws ++ d :: t) = none := by
  unfold closes
  rw [skipSpace_spaces _ _ hws, skipSpace_cons _ _ hd]
  simp [hne]

theorem jsonScan_sound (f : Nat) (m : JsonMode) (room : Nat) (s r : Str)
    (h : jsonScan f m room s = some r) : ∃ x, s = x ++ r ∧ ScanText m room x := by
  induction f generalizing m room s r with
  | zero => simp [jsonScan] at h
  | succ f ih =>
    cases m with
    | value =>
      rw [jsonScan] at h
      obtain ⟨ws, es, hws⟩ := skipSpace_split s
      suffices key : ∃ v, skipSpace s = v ++ r ∧ JsonText JsonMode.value room v by
        obtain ⟨v, e1, hv⟩ := key
        exact ⟨ws ++ v, by rw [List.append_assoc, ← e1]; exact es, ws, v, rfl, hws, hv⟩
      split at h
      · cases h
      · next c t heq =>
        rw [heq]
        split at h
        · next hc =>
          have hc2 : c = '{' := by simpa using hc
          subst hc2
          split at h
          · cases h
          · next hroom =>
            obtain ⟨k, rfl⟩ : ∃ k, room = k + 1 := ⟨room - 1, by omega⟩
            split at h
            · next r2 h2 =>
              injection h with h
              subst h
              obtain ⟨ws2, e2, hws2⟩ := closes_sound _ _ _ h2
              exact ⟨'{' :: (ws2 ++ ['}']), by rw [e2]; simp, JsonText.emptyObject k ws2 hws2⟩
            · obtain ⟨x, e2, hx⟩ := ih _ _ _ _ h
              rw [Nat.add_sub_cancel] at hx
              exact ⟨'{' :: x, by rw [e2]; rfl, JsonText.object k x hx⟩
        · split at h
          · next hc =>
            have hc2 : c = '[' := by simpa using hc
            subst hc2
            split at h
            · cases h
            · next hroom =>
              obtain ⟨k, rfl⟩ : ∃ k, room = k + 1 := ⟨room - 1, by omega⟩
              split at h
              · next r2 h2 =>
                injection h with h
                subst h
                obtain ⟨ws2, e2, hws2⟩ := closes_sound _ _ _ h2
                exact ⟨'[' :: (ws2 ++ [']']), by rw [e2]; simp, JsonText.emptyArray k ws2 hws2⟩
              · obtain ⟨x, e2, hx⟩ := ih _ _ _ _ h
                rw [Nat.add_sub_cancel] at hx
                exact ⟨'[' :: x, by rw [e2]; rfl, JsonText.array k x hx⟩
          · split at h
            · next hc =>
              have hc2 : c = '"' := by simpa using hc
              subst hc2
              obtain ⟨body, e2, hb⟩ := scanString_sound t.length t r (Nat.le_refl _) h
              exact ⟨'"' :: body, by rw [e2]; rfl, JsonText.string room body hb⟩
            · split at h
              · next hc =>
                have hc2 : c = 't' := by simpa using hc
                subst hc2
                have e2 := dropLiteral_eq _ _ _ h
                exact ⟨"true".toList, by rw [e2]; rfl, JsonText.litTrue room⟩
              · split at h
                · next hc =>
                  have hc2 : c = 'f' := by simpa using hc
                  subst hc2
                  have e2 := dropLiteral_eq _ _ _ h
                  exact ⟨"false".toList, by rw [e2]; rfl, JsonText.litFalse room⟩
                · split at h
                  · next hc =>
                    have hc2 : c = 'n' := by simpa using hc
                    subst hc2
                    have e2 := dropLiteral_eq _ _ _ h
                    exact ⟨"null".toList, by rw [e2]; rfl, JsonText.litNull room⟩
                  · obtain ⟨x, e2, hx⟩ := scanNumber_sound _ _ h
                    exact ⟨x, e2, JsonText.number room x hx⟩
    | elements =>
      rw [jsonScan] at h
      split at h
      · cases h
      · next r1 h1 =>
        obtain ⟨x1, e1, ws1, v, ex1, hws1, hv⟩ := ih _ _ _ _ h1
        obtain ⟨ws2, es2, hws2⟩ := skipSpace_split r1
        split at h
        · cases h
        · next c r2 heq =>
          rw [heq] at es2
          split at h
          · next hc =>
            have hc2 : c = ',' := by simpa using hc
            subst hc2
            obtain ⟨x, e2, hx⟩ := ih _ _ _ _ h
            refine ⟨ws1 ++ (v ++ (ws2 ++ ',' :: x)), ?_,
              JsonText.moreElements room ws1 v ws2 x hws1 hv hws2 hx⟩
            rw [e1, ex1, es2, e2]
            simp
          · split at h
            · next hc =>
              have hc2 : c = ']' := by simpa using hc
              subst hc2
              injection h with h
              subst h
              refine ⟨ws1 ++ (v ++ (ws2 ++ [']'])), ?_,
                JsonText.lastElement room ws1 v ws2 hws1 hv hws2⟩
              rw [e1, ex1, es2]
              simp
            · cases h
    | members =>
      rw [jsonScan] at h
      obtain ⟨ws1, es1, hws1⟩ := skipSpace_split s
      split at h
      · cases h
      · next c t heq =>
        rw [heq] at es1
        split at h
        · next hc =>
          have hc2 : c = '"' := by simpa using hc
          subst hc2
          split at h
          · cases h
          · next r1 h1 =>
            obtain ⟨key, ek, hkey⟩ := scanString_sound t.length t r1 (Nat.le_refl _) h1
            obtain ⟨ws2, es2, hws2⟩ := skipSpace_split r1
            split at h
            · cases h
            · next c2 r2 heq2 =>
              rw [heq2] at es2
              split at h
              · next hc2 =>
                have hc3 : c2 = ':' := by simpa using hc2
                subst hc3
                split at h
                · cases h
                · next r3 h3 =>
                  obtain ⟨x3, e3, ws3, v, ex3, hws3, hv⟩ := ih _ _ _ _ h3
                  obtain ⟨ws4, es4, hws4⟩ := skipSpace_split r3
                  split at h
                  · cases h
                  · next c4 r4 heq4 =>
                    rw [heq4] at es4
                    split at h
                    · next hc4 =>
                      have hc5 : c4 = ',' := by simpa using hc4
                      subst hc5
                      obtain ⟨x, e5, hx⟩ := ih _ _ _ _ h
                      refine ⟨ws1 ++ '"' :: (key ++ (ws2 ++ ':' :: (ws3 ++ (v ++
                        (ws4 ++ ',' :: x))))), ?_,
                        JsonText.moreMembers room ws1 key ws2 ws3 v ws4 x hws1 hkey hws2 hws3
                          hv hws4 hx⟩
                      rw [es1, ek, es2, e3, ex3, es4, e5]
                      simp
                    · split at h
                      · next hc4 =>
                        have hc5 : c4 = '}' := by simpa using hc4
                        subst hc5
                        injection h with h
                        subst h
                        refine ⟨ws1 ++ '"' :: (key ++ (ws2 ++ ':' :: (ws3 ++ (v ++
                          (ws4 ++ ['}']))))), ?_,
                          JsonText.lastMember room ws1 key ws2 ws3 v ws4 hws1 hkey hws2 hws3
                            hv hws4⟩
                        rw [es1, ek, es2, e3, ex3, es4]
                        simp
                      · cases h
              · cases h
        · cases h

theorem digit_not_space (c : Char) (h : isDecimalDigit c = true) : isJsonSpace c = false := by
  have h1 := digit_ne c ' ' h (by decide)
  have h2 := digit_ne c '\t' h (by decide)
  have h3 := digit_ne c '\r' h (by decide)
  have h4 := digit_ne c '\n' h (by decide)
  simp [isJsonSpace, h1, h2, h3, h4]

theorem jsonNumber_head (x : Str) (h : JsonNumber x) :
    ∃ c t, x = c :: t ∧ (c = '-' ∨ isDecimalDigit c = true) := by
  obtain ⟨sign, int, frac, fs, ex, e, e1, hs, hi, _, _, _⟩ := h
  obtain ⟨d, t, e2, hd⟩ := integerPart_head int hi
  rcases hs with hs | hs
  · exact ⟨d, t ++ (frac ++ ex), by rw [e1, hs, e2]; rfl, Or.inr hd⟩
  · exact ⟨'-', int ++ (frac ++ ex), by rw [e1, hs]; rfl, Or.inl rfl⟩

/-- The first character of a JSON value. -/
theorem value_head (k : Nat) (v : Str) (h : JsonText JsonMode.value k v) :
    ∃ c t, v = c :: t ∧ isJsonSpace c = false ∧ c ≠ ']' ∧ c ≠ '}' ∧ c ≠ ',' := by
  cases h with
  | string k body _ => exact ⟨'"', body, rfl, by decide, by decide, by decide, by decide⟩
  | number _ _ hx =>
    obtain ⟨c, t, e, hc⟩ := jsonNumber_head v hx
    rcases hc with hc | hc
    · subst hc
      exact ⟨'-', t, e, by decide, by decide, by decide, by decide⟩
    · exact ⟨c, t, e, digit_not_space c hc, digit_ne c _ hc (by decide),
        digit_ne c _ hc (by decide), digit_ne c _ hc (by decide)⟩
  | litTrue k => exact ⟨'t', _, rfl, by decide, by decide, by decide, by decide⟩
  | litFalse k => exact ⟨'f', _, rfl, by decide, by decide, by decide, by decide⟩
  | litNull k => exact ⟨'n', _, rfl, by decide, by decide, by decide, by decide⟩
  | emptyObject k ws _ => exact ⟨'{', _, rfl, by decide, by decide, by decide, by decide⟩
  | object k ms _ => exact ⟨'{', _, rfl, by decide, by decide, by decide, by decide⟩
  | emptyArray k ws _ => exact ⟨'[', _, rfl, by decide, by decide, by decide, by decide⟩
  | array k es _ => exact ⟨'[', _, rfl, by decide, by decide, by decide, by decide⟩

theorem elements_head (k : Nat) (x : Str) (h : JsonText JsonMode.elements k x) :
    ∃ ws c t, x = ws ++ c :: t ∧ IsSpaces ws ∧ isJsonSpace c = false ∧ c ≠ ']' := by
  cases h with
  | lastElement k ws1 v ws2 hws1 hv _ =>
    obtain ⟨c, t, e, h1, h2, _, _⟩ := value_head k v hv
    exact ⟨ws1, c, t ++ (ws2 ++ [']']), by rw [e]; rfl, hws1, h1, h2⟩
  | moreElements k ws1 v ws2 rest hws1 hv _ _ =>
    obtain ⟨c, t, e, h1, h2, _, _⟩ := value_head k v hv
    exact ⟨ws1, c, t ++ (ws2 ++ ',' :: rest), by rw [e]; rfl, hws1, h1, h2⟩

theorem members_head (k : Nat) (x : Str) (h : JsonText JsonMode.members k x) :
    ∃ ws t, x = ws ++ '"' :: t ∧ IsSpaces ws := by
  cases h with
  | lastMember k ws1 key ws2 ws3 v ws4 hws1 _ _ _ _ _ => exact ⟨ws1, _, rfl, hws1⟩
  | moreMembers k ws1 key ws2 ws3 v ws4 rest hws1 _ _ _ _ _ _ => exact ⟨ws1, _, rfl, hws1⟩

theorem jsonScan_value (f room : Nat) (s : Str) (c : Char) (r : Str)
    (h : skipSpace s = c :: r) :
    jsonScan (f + 1) JsonMode.value room s =
      if c == '{' then
        if room = 0 then none
        else
          match closes '}' r with
          | some r2 => some r2
          | none => jsonScan f JsonMode.members (room - 1) r
      else if c == '[' then
        if room = 0 then none
        else
          match closes ']' r with
          | some r2 => some r2
          | none => jsonScan f JsonMode.elements (room - 1) r
      else if c == '"' then scanString r
      else if c == 't' then dropLiteral "rue".toList r
      else if c == 'f' then dropLiteral "alse".toList r
      else if c == 'n' then dropLiteral "ull".toList r
      else scanNumber (c :: r) := by
  rw [jsonScan, h]

theorem jsonScan_number (f room : Nat) (s : Str) (c : Char) (r : Str)
    (h : skipSpace s = c :: r) (hc : c = '-' ∨ isDecimalDigit c = true) :
    jsonScan (f + 1) JsonMode.value room s = scanNumber (c :: r) := by
  rw [jsonScan_value f room s c r h]
  have h1 : (c == '{') = false ∧ (c == '[') = false ∧ (c == '"') = false ∧
      (c == 't') = false ∧ (c == 'f') = false ∧ (c == 'n') = false := by
    rcases hc with hc | hc
    · subst hc
      decide
    · have a1 := digit_ne c '{' hc (by decide)
      have a2 := digit_ne c '[' hc (by decide)
      have a3 := digit_ne c '"' hc (by decide)
      have a4 := digit_ne c 't' hc (by decide)
      have a5 := digit_ne c 'f' hc (by decide)
      have a6 := digit_ne c 'n' hc (by decide)
      simp [a1, a2, a3, a4, a5, a6]
  obtain ⟨b1, b2, b3, b4, b5, b6⟩ := h1
  simp only [b1, b2, b3, b4, b5, b6, Bool.false_eq_true, if_false]

theorem delimited_spaces_cons (ws : Str) (c : Char) (t : Str) (hws : IsSpaces ws)
    (hc : c = ',' ∨ c = ']' ∨ c = '}') : Delimited (ws ++ c :: t) := by
  intro d u e
  cases ws with
  | nil =>
    injection e with e1 _
    subst e1
    exact Or.inr hc
  | cons w ws2 =>
    injection e with e1 _
    subst e1
    exact Or.inl (hws _ (List.mem_cons_self _ _))

theorem delimited_spaces (ws : Str) (hws : IsSpaces ws) : Delimited ws := by
  intro d u e
  exact Or.inl (hws d (by rw [e]; exact List.mem_cons_self _ _))

theorem jsonScan_elements_step (f room : Nat) (s r1 : Str) (c : Char) (r2 : Str)
    (h1 : jsonScan f JsonMode.value room s = some r1) (h2 : skipSpace r1 = c :: r2) :
    jsonScan (f + 1) JsonMode.elements room s =
      if c == ',' then jsonScan f JsonMode.elements room r2
      else if c == ']' then some r2
      else none := by
  rw [jsonScan, h1]
  simp only
  rw [h2]

theorem jsonScan_members_step (f room : Nat) (s r r1 r2 r3 : Str) (c4 : Char) (r4 : Str)
    (h0 : skipSpace s = '"' :: r) (h1 : scanString r = some r1)
    (h2 : skipSpace r1 = ':' :: r2) (h3 : jsonScan f JsonMode.value room r2 = some r3)
    (h4 : skipSpace r3 = c4 :: r4) :
    jsonScan (f + 1) JsonMode.members room s =
      if c4 == ',' then jsonScan f JsonMode.members room r4
      else if c4 == '}' then some r4
      else none := by
  rw [jsonScan, h0]
  simp only [beq_self_eq_true, if_true]
  rw [h1]
  simp only
  rw [h2]
  simp only [beq_self_eq_true, if_true]
  rw [h3]
  simp only
  rw [h4]

theorem skipSpace_spaces_cons (ws : Str) (c : Char) (t : Str) (hws : IsSpaces ws)
    (hc : isJsonSpace c = false) : skipSpace (ws ++ c :: t) = c :: t := by
  rw [skipSpace_spaces _ _ hws, skipSpace_cons _ _ hc]

/-- Every text of the grammar is read by the scanner, given enough budget. -/
theorem jsonScan_complete (m : JsonMode) (k : Nat) (x : Str) (h : JsonText m k x) :
    ∃ f0, ∀ f, f0 ≤ f → ScansTo (f + 1) m k x := by
  induction h with
  | string k body hb =>
    refine ⟨0, fun f _ => ?_⟩
    intro ws rest hws _
    have hsk : skipSpace (ws ++ ('"' :: body ++ rest)) = '"' :: (body ++ rest) :=
      skipSpace_spaces_cons ws _ _ hws (by decide)
    rw [jsonScan_value f k _ _ _ hsk]
    exact scanString_complete body rest hb
  | number k x hx =>
    refine ⟨0, fun f _ => ?_⟩
    intro ws rest hws hd
    obtain ⟨c, t, e, hc⟩ := jsonNumber_head x hx
    have hns : isJsonSpace c = false := by
      rcases hc with hc | hc
      · subst hc; decide
      · exact digit_not_space c hc
    have hsk : skipSpace (ws ++ (x ++ rest)) = c :: (t ++ rest) := by
      rw [e]
      exact skipSpace_spaces_cons ws _ _ hws hns
    rw [jsonScan_number f k _ c _ hsk hc]
    have key := scanNumber_complete x rest hx (numberEnd_of_delimited rest hd)
    rw [e] at key
    exact key
  | litTrue k =>
    refine ⟨0, fun f _ => ?_⟩
    intro ws rest hws _
    have hsk : skipSpace (ws ++ ("true".toList ++ rest)) = 't' :: ("rue".toList ++ rest) :=
      skipSpace_spaces_cons ws _ _ hws (by decide)
    rw [jsonScan_value f k _ _ _ hsk]
    exact dropLiteral_append _ rest
  | litFalse k =>
    refine ⟨0, fun f _ => ?_⟩
    intro ws rest hws _
    have hsk : skipSpace (ws ++ ("false".toList ++ rest)) = 'f' :: ("alse".toList ++ rest) :=
      skipSpace_spaces_cons ws _ _ hws (by decide)
    rw [jsonScan_value f k _ _ _ hsk]
    exact dropLiteral_append _ rest
  | litNull k =>
    refine ⟨0, fun f _ => ?_⟩
    intro ws rest hws _
    have hsk : skipSpace (ws ++ ("null".toList ++ rest)) = 'n' :: ("ull".toList ++ rest) :=
      skipSpace_spaces_cons ws _ _ hws (by decide)
    rw [jsonScan_value f k _ _ _ hsk]
    exact dropLiteral_append _ rest
  | emptyObject k ws2 hws2 =>
    refine ⟨0, fun f _ => ?_⟩
    intro ws rest hws _
    have hsk : skipSpace (ws ++ ('{' :: (ws2 ++ ['}']) ++ rest)) = '{' :: (ws2 ++ '}' :: rest) := by
      have := skipSpace_spaces_cons ws '{' (ws2 ++ '}' :: rest) hws (by decide)
      simpa using this
    rw [jsonScan_value f (k + 1) _ _ _ hsk]
    simp only [beq_self_eq_true, if_true, Nat.succ_ne_zero, if_false]
    rw [closes_complete '}' ws2 rest hws2 (by decide)]
  | emptyArray k ws2 hws2 =>
    refine ⟨0, fun f _ => ?_⟩
    intro ws rest hws _
    have hsk : skipSpace (ws ++ ('[' :: (ws2 ++ [']']) ++ rest)) = '[' :: (ws2 ++ ']' :: rest) := by
      have := skipSpace_spaces_cons ws '[' (ws2 ++ ']' :: rest) hws (by decide)
      simpa using this
    rw [jsonScan_value f (k + 1) _ _ _ hsk]
    have h1 : ('[' == '{') = false := by decide
    simp only [h1, beq_self_eq_true, if_true, Nat.succ_ne_zero, if_false, Bool.false_eq_true]
    rw [closes_complete ']' ws2 rest hws2 (by decide)]
  | object k ms hms ih =>
    obtain ⟨f0, hf0⟩ := ih
    refine ⟨f0 + 1, fun f hf => ?_⟩
    obtain ⟨g, rfl⟩ : ∃ g, f = g + 1 := ⟨f - 1, by omega⟩
    intro ws rest hws _
    have hsk : skipSpace (ws ++ ('{' :: ms ++ rest)) = '{' :: (ms ++ rest) :=
      skipSpace_spaces_cons ws _ _ hws (by decide)
    obtain ⟨wsm, t, em, hwsm⟩ := members_head k ms hms
    have hcl : closes '}' (ms ++ rest) = none := by
      rw [em, List.append_assoc, List.cons_append]
      exact closes_other '}' '"' wsm _ hwsm (by decide) (by decide)
    rw [jsonScan_value (g + 1) (k + 1) _ _ _ hsk]
    simp only [beq_self_eq_true, if_true, Nat.succ_ne_zero, if_false, hcl, Nat.add_sub_cancel]
    exact hf0 g (by omega) rest
  | array k es hes ih =>
    obtain ⟨f0, hf0⟩ := ih
    refine ⟨f0 + 1, fun f hf => ?_⟩
    obtain ⟨g, rfl⟩ : ∃ g, f = g + 1 := ⟨f - 1, by omega⟩
    intro ws rest hws _
    have hsk : skipSpace (ws ++ ('[' :: es ++ rest)) = '[' :: (es ++ rest) :=
      skipSpace_spaces_cons ws _ _ hws (by decide)
    obtain ⟨wse, c, t, ee, hwse, hc1, hc2⟩ := elements_head k es hes
    have hcl : closes ']' (es ++ rest) = none := by
      rw [ee, List.append_assoc, List.cons_append]
      exact closes_other ']' c wse _ hwse hc1 hc2
    rw [jsonScan_value (g + 1) (k + 1) _ _ _ hsk]
    have h1 : ('[' == '{') = false := by decide
    simp only [h1, beq_self_eq_true, if_true, Nat.succ_ne_zero, if_false, hcl,
      Nat.add_sub_cancel, Bool.false_eq_true]
    exact hf0 g (by omega) rest
  | lastElement k ws1 v ws2 hws1 hv hws2 ihv =>
    obtain ⟨f0, hf0⟩ := ihv
    refine ⟨f0 + 1, fun f hf => ?_⟩
    obtain ⟨g, rfl⟩ : ∃ g, f = g + 1 := ⟨f - 1, by omega⟩
    intro rest
    have e0 : ws1 ++ (v ++ (ws2 ++ [']'])) ++ rest = ws1 ++ (v ++ (ws2 ++ ']' :: rest)) := by
      simp
    have h1 := hf0 g (by omega) ws1 (ws2 ++ ']' :: rest) hws1
      (delimited_spaces_cons ws2 ']' rest hws2 (Or.inr (Or.inl rfl)))
    have h2 : skipSpace (ws2 ++ ']' :: rest) = ']' :: rest :=
      skipSpace_spaces_cons ws2 _ _ hws2 (by decide)
    rw [e0, jsonScan_elements_step (g + 1) k _ _ _ _ h1 h2]
    rfl
  | moreElements k ws1 v ws2 more hws1 hv hws2 hmore ihv ihm =>
    obtain ⟨f0, hf0⟩ := ihv
    obtain ⟨f1, hf1⟩ := ihm
    refine ⟨f0 + f1 + 1, fun f hf => ?_⟩
    obtain ⟨g, rfl⟩ : ∃ g, f = g + 1 := ⟨f - 1, by omega⟩
    intro rest
    have e0 : ws1 ++ (v ++ (ws2 ++ ',' :: more)) ++ rest
        = ws1 ++ (v ++ (ws2 ++ ',' :: (more ++ rest))) := by
      simp
    have h1 := hf0 g (by omega) ws1 (ws2 ++ ',' :: (more ++ rest)) hws1
      (delimited_spaces_cons ws2 ',' _ hws2 (Or.inl rfl))
    have h2 : skipSpace (ws2 ++ ',' :: (more ++ rest)) = ',' :: (more ++ rest) :=
      skipSpace_spaces_cons ws2 _ _ hws2 (by decide)
    rw [e0, jsonScan_elements_step (g + 1) k _ _ _ _ h1 h2]
    simp only [beq_self_eq_true, if_true]
    exact hf1 g (by omega) rest
  | lastMember k ws1 key ws2 ws3 v ws4 hws1 hkey hws2 hws3 hv hws4 ihv =>
    obtain ⟨f0, hf0⟩ := ihv
    refine ⟨f0 + 1, fun f hf => ?_⟩
    obtain ⟨g, rfl⟩ : ∃ g, f = g + 1 := ⟨f - 1, by omega⟩
    intro rest
    have e0 : ws1 ++ '"' :: (key ++ (ws2 ++ ':' :: (ws3 ++ (v ++ (ws4 ++ ['}']))))) ++ rest
        = ws1 ++ '"' :: (key ++ (ws2 ++ ':' :: (ws3 ++ (v ++ (ws4 ++ '}' :: rest))))) := by
      simp
    have h0 : skipSpace (ws1 ++ '"' :: (key ++ (ws2 ++ ':' :: (ws3 ++ (v ++
        (ws4 ++ '}' :: rest)))))) = '"' :: (key ++ (ws2 ++ ':' :: (ws3 ++ (v ++
        (ws4 ++ '}' :: rest))))) :=
      skipSpace_spaces_cons ws1 _ _ hws1 (by decide)
    have h1 := scanString_complete key (ws2 ++ ':' :: (ws3 ++ (v ++ (ws4 ++ '}' :: rest)))) hkey
    have h2 : skipSpace (ws2 ++ ':' :: (ws3 ++ (v ++ (ws4 ++ '}' :: rest))))
        = ':' :: (ws3 ++ (v ++ (ws4 ++ '}' :: rest))) :=
      skipSpace_spaces_cons ws2 _ _ hws2 (by decide)
    have h3 := hf0 g (by omega) ws3 (ws4 ++ '}' :: rest) hws3
      (delimited_spaces_cons ws4 '}' rest hws4 (Or.inr (Or.inr rfl)))
    have h4 : skipSpace (ws4 ++ '}' :: rest) = '}' :: rest :=
      skipSpace_spaces_cons ws4 _ _ hws4 (by decide)
    rw [e0, jsonScan_members_step (g + 1) k _ _ _ _ _ _ _ h0 h1 h2 h3 h4]
    rfl
  | moreMembers k ws1 key ws2 ws3 v ws4 more hws1 hkey hws2 hws3 hv hws4 hmore ihv ihm =>
    obtain ⟨f0, hf0⟩ := ihv
    obtain ⟨f1, hf1⟩ := ihm
    refine ⟨f0 + f1 + 1, fun f hf => ?_⟩
    obtain ⟨g, rfl⟩ : ∃ g, f = g + 1 := ⟨f - 1, by omega⟩
    intro rest
    have e0 : ws1 ++ '"' :: (key ++ (ws2 ++ ':' :: (ws3 ++ (v ++ (ws4 ++ ',' :: more))))) ++ rest
        = ws1 ++ '"' :: (key ++ (ws2 ++ ':' :: (ws3 ++ (v ++ (ws4 ++ ',' :: (more ++ rest)))))) := by
      simp
    have h0 : skipSpace (ws1 ++ '"' :: (key ++ (ws2 ++ ':' :: (ws3 ++ (v ++
        (ws4 ++ ',' :: (more ++ rest))))))) = '"' :: (key ++ (ws2 ++ ':' :: (ws3 ++ (v ++
        (ws4 ++ ',' :: (more ++ rest)))))) :=
      skipSpace_spaces_cons ws1 _ _ hws1 (by decide)
    have h1 := scanString_complete key
      (ws2 ++ ':' :: (ws3 ++ (v ++ (ws4 ++ ',' :: (more ++ rest))))) hkey
    have h2 : skipSpace (ws2 ++ ':' :: (ws3 ++ (v ++ (ws4 ++ ',' :: (more ++ rest)))))
        = ':' :: (ws3 ++ (v ++ (ws4 ++ ',' :: (more ++ rest)))) :=
      skipSpace_spaces_cons ws2 _ _ hws2 (by decide)
    have h3 := hf0 g (by omega) ws3 (ws4 ++ ',' :: (more ++ rest)) hws3
      (delimited_spaces_cons ws4 ',' _ hws4 (Or.inl rfl))
    have h4 : skipSpace (ws4 ++ ',' :: (more ++ rest)) = ',' :: (more ++ rest) :=
      skipSpace_spaces_cons ws4 _ _ hws4 (by decide)
    rw [e0, jsonScan_members_step (g + 1) k _ _ _ _ _ _ _ h0 h1 h2 h3 h4]
    simp only [beq_self_eq_true, if_true]
    exact hf1 g (by omega) rest

/-! ## The recursion budget of the JSON scanner is sufficient -/

theorem skipSpace_length (s : Str) : (skipSpace s).length ≤ s.length := by
  obtain ⟨ws, e, _⟩ := skipSpace_split s
  have := congrArg List.length e
  rw [List.length_append] at this
  omega

theorem skipSpace_cons_length (s r : Str) (c : Char) (h : skipSpace s = c :: r) :
    r.length + 1 ≤ s.length := by
  have := skipSpace_length s
  rw [h] at this
  simpa using this

theorem stringBody_length (body : Str) (h : StringBody body) : 1 ≤ body.length := by
  cases h <;> simp

theorem scanString_length (s r : Str) (h : scanString s = some r) :
    r.length + 1 ≤ s.length := by
  obtain ⟨body, e, hb⟩ := scanString_sound s.length s r (Nat.le_refl _) h
  have := stringBody_length body hb
  rw [e, List.length_append]
  omega

theorem scanText_length (m : JsonMode) (room : Nat) (x : Str) (h : ScanText m room x) :
    1 ≤ x.length := by
  cases m with
  | value =>
    obtain ⟨ws, v, e, _, hv⟩ := h
    obtain ⟨c, t, e2, _⟩ := value_head room v hv
    rw [e, e2]
    simp
    omega
  | elements =>
    obtain ⟨ws, c, t, e, _⟩ := elements_head room x h
    rw [e]
    simp
    omega
  | members =>
    obtain ⟨ws, t, e, _⟩ := members_head room x h
    rw [e]
    simp
    omega

theorem jsonScan_length (f : Nat) (m : JsonMode) (room : Nat) (s r : Str)
    (h : jsonScan f m room s = some r) : r.length + 1 ≤ s.length := by
  obtain ⟨x, e, hx⟩ := jsonScan_sound f m room s r h
  have := scanText_length m room x hx
  rw [e, List.length_append]
  omega

/-- The budget a scan can use: `2 n + 1` for a value of length `n`, `2 n + 2` for the rest
of an array or object; any two budgets of at least that size give the same scan. -/
theorem jsonScan_stable_aux (f : Nat) :
    ∀ (g : Nat) (m : JsonMode) (room : Nat) (s : Str),
      (match m with
        | JsonMode.value => 2 * s.length + 1
        | JsonMode.elements => 2 * s.length + 2
        | JsonMode.members => 2 * s.length + 2) ≤ f →
      (match m with
        | JsonMode.value => 2 * s.length + 1
        | JsonMode.elements => 2 * s.length + 2
        | JsonMode.members => 2 * s.length + 2) ≤ g →
      jsonScan f m room s = jsonScan g m room s := by
  induction f with
  | zero =>
    intro g m room s hf
    cases m <;> simp only at hf <;> omega
  | succ f ih =>
    intro g m room s hf hg
    cases g with
    | zero => cases m <;> simp only at hg <;> omega
    | succ g =>
      cases m with
      | value =>
        simp only at hf hg
        rw [jsonScan, jsonScan]
        split
        · rfl
        · next c t heq =>
          have hs := skipSpace_cons_length _ _ _ heq
          rw [ih g JsonMode.members (room - 1) t (by simp only; omega) (by simp only; omega),
            ih g JsonMode.elements (room - 1) t (by simp only; omega) (by simp only; omega)]
      | elements =>
        simp only at hf hg
        rw [jsonScan, jsonScan]
        rw [ih g JsonMode.value room s (by simp only; omega) (by simp only; omega)]
        split
        · rfl
        · next r1 h1 =>
          have l1 := jsonScan_length _ _ _ _ _ h1
          split
          · rfl
          · next c r2 heq =>
            have := skipSpace_cons_length _ _ _ heq
            rw [ih g JsonMode.elements room r2 (by simp only; omega) (by simp only; omega)]
      | members =>
        simp only at hf hg
        rw [jsonScan, jsonScan]
        split
        · rfl
        · next c t heq =>
          have hs := skipSpace_cons_length _ _ _ heq
          split
          · split
            · rfl
            · next r1 h1 =>
              have l1 := scanString_length t r1 h1
              split
              · rfl
              · next c2 r2 heq2 =>
                have l2 := skipSpace_cons_length _ _ _ heq2
                rw [ih g JsonMode.value room r2 (by simp only; omega) (by simp only; omega)]
                split
                · split
                  · rfl
                  · next r3 h3 =>
                    have l3 := jsonScan_length _ _ _ _ _ h3
                    split
                    · rfl
                    · next c4 r4 heq4 =>
                      have := skipSpace_cons_length _ _ _ heq4
                      rw [ih g JsonMode.members room r4 (by simp only; omega)
                        (by simp only; omega)]
                · rfl
          · rfl

/-- The budget of `unmarshalIntoMap` is sufficient: a larger budget gives the same scan. -/
theorem jsonScan_budget (g room : Nat) (s : Str) (hg : 2 * s.length + 2 ≤ g) :
    jsonScan g JsonMode.value room s = jsonScan (2 * s.length + 2) JsonMode.value room s :=
  jsonScan_stable_aux g (2 * s.length + 2) JsonMode.value room s
    (by simp only; omega) (by simp only; omega)

/-! ## `unmarshalIntoMap` accepts exactly the texts of the grammar -/

theorem unmarshalIntoMap_iff (value : Str) :
    unmarshalIntoMap value = true ↔ DecodesIntoMap value := by
  constructor
  · intro h
    unfold unmarshalIntoMap at h
    obtain ⟨ws1, e1, hws1⟩ := skipSpace_split value
    split at h
    · cases h
    · next c t heq =>
      split at h
      · next hc =>
        have hc2 : c = '{' := by simpa using hc
        subst hc2
        split at h
        · next rest hscan =>
          obtain ⟨x, e2, ws, v, e3, hws, hv⟩ := jsonScan_sound _ _ _ _ _ hscan
          have hrest := isSpaces_of_skipSpace rest h
          obtain ⟨d, u, e4, hd, _⟩ := value_head _ v hv
          have hsk : skipSpace value = d :: (u ++ rest) := by
            rw [e2, e3, e4, List.append_assoc, List.cons_append]
            exact skipSpace_spaces_cons ws d _ hws hd
          rw [heq] at hsk
          injection hsk with hd2 _
          subst hd2
          exact ⟨ws, v, rest, by rw [e2, e3, List.append_assoc], hws, hrest,
            Or.inr ⟨u, e4, hv⟩⟩
        · cases h
      · split at h
        · next hc =>
          have hc2 : c = 'n' := by simpa using hc
          subst hc2
          split at h
          · next rest hd =>
            have hrest := isSpaces_of_skipSpace rest h
            have e2 := dropLiteral_eq _ _ _ hd
            refine ⟨ws1, "null".toList, rest, ?_, hws1, hrest, Or.inl rfl⟩
            rw [e1, heq, e2]
            rfl
          · cases h
        · cases h
  · rintro ⟨ws1, body, ws2, e, hws1, hws2, hb⟩
    rcases hb with hb | ⟨inner, e2, hv⟩
    · subst hb
      have hsk : skipSpace value = 'n' :: ("ull".toList ++ ws2) := by
        rw [e]
        exact skipSpace_spaces_cons ws1 'n' _ hws1 (by decide)
      unfold unmarshalIntoMap
      rw [hsk]
      have h1 : ('n' == '{') = false := by decide
      simp only [h1, Bool.false_eq_true, if_false, beq_self_eq_true, if_true]
      rw [dropLiteral_append]
      simp only
      rw [skipSpace_of_isSpaces ws2 hws2]
      rfl
    · have hsk : skipSpace value = '{' :: (inner ++ ws2) := by
        rw [e, e2]
        exact skipSpace_spaces_cons ws1 '{' _ hws1 (by decide)
      obtain ⟨f0, hf0⟩ := jsonScan_complete _ _ _ hv
      have hscan := hf0 (f0 + 2 * value.length + 2) (by omega) ws1 ws2 hws1
        (delimited_spaces ws2 hws2)
      rw [← e, jsonScan_budget _ _ value (by omega)] at hscan
      unfold unmarshalIntoMap
      rw [hsk]
      simp only [beq_self_eq_true, if_true]
      rw [hscan]
      simp only
      rw [skipSpace_of_isSpaces ws2 hws2]
      rfl

theorem isSpaces_nil : IsSpaces [] := fun c hc => by cases hc

theorem isDigits_nil : IsDigits [] := fun c hc => by cases hc

/-! ## The nesting limit -/

theorem jsonScan_no_room (f k : Nat) (s : Str) :
    jsonScan f JsonMode.value k (List.replicate (k + 1) '[' ++ s) = none := by
  induction k generalizing f s with
  | zero =>
    cases f with
    | zero => rfl
    | succ f =>
      have hsk : skipSpace (List.replicate (0 + 1) '[' ++ s) = '[' :: s :=
        skipSpace_cons '[' s (by decide)
      rw [jsonScan_value f 0 _ _ _ hsk]
      rfl
  | succ k ih =>
    cases f with
    | zero => rfl
    | succ f =>
      have e : List.replicate (k + 1 + 1) '[' ++ s = '[' :: (List.replicate (k + 1) '[' ++ s) :=
        rfl
      have hsk : skipSpace (List.replicate (k + 1 + 1) '[' ++ s)
          = '[' :: (List.replicate (k + 1) '[' ++ s) := by
        rw [e]
        exact skipSpace_cons '[' _ (by decide)
      have hcl : closes ']' (List.replicate (k + 1) '[' ++ s) = none :=
        closes_other ']' '[' [] _ isSpaces_nil (by decide) (by decide)
      rw [jsonScan_value f (k + 1) _ _ _ hsk]
      have h1 : ('[' == '{') = false := by decide
      simp only [h1, beq_self_eq_true, if_true, Nat.succ_ne_zero, if_false, hcl,
        Nat.add_sub_cancel, Bool.false_eq_true]
      cases f with
      | zero => rfl
      | succ f =>
        rw [jsonScan, ih f s]

theorem nested_arrays_text (n : Nat) :
    JsonText JsonMode.value (n + 1)
      (List.replicate (n + 1) '[' ++ List.replicate (n + 1) ']') := by
  induction n with
  | zero => exact JsonText.emptyArray 0 [] isSpaces_nil
  | succ n ih =>
    have e : List.replicate (n + 1 + 1) '[' ++ List.replicate (n + 1 + 1) ']'
        = '[' :: ([] ++ ((List.replicate (n + 1) '[' ++ List.replicate (n + 1) ']') ++
          ([] ++ [']']))) := by
      rw [List.replicate_succ' (n + 1) ']']
      simp [List.replicate_succ]
    rw [e]
    exact JsonText.array (n + 1) _ (JsonText.lastElement (n + 1) [] _ [] isSpaces_nil ih
      isSpaces_nil)

/-- An object holding `k` nested arrays decodes when `k + 1` is within the nesting limit. -/
theorem nestedArrays_decodes (k : Nat) :
    JsonText JsonMode.value (k + 1 + 1) (nestedArrays (k + 1)) := by
  have hkey : StringBody ['a', '"'] :=
    StringBody.plain 'a' _ (by decide) (by decide) (by decide) StringBody.close
  have hm := JsonText.lastMember (k + 1) [] ['a', '"'] [] [] _ [] isSpaces_nil hkey
    isSpaces_nil isSpaces_nil (nested_arrays_text k) isSpaces_nil
  have := JsonText.object (k + 1) _ hm
  have e : nestedArrays (k + 1) = '{' :: ([] ++ '"' :: (['a', '"'] ++ ([] ++ ':' :: ([] ++
      ((List.replicate (k + 1) '[' ++ List.replicate (k + 1) ']') ++ ([] ++ ['}'])))))) := by
    simp [nestedArrays]
  rw [e]
  exact this

/-- An object holding as many nested arrays as the nesting limit does not decode. -/
theorem nestedArrays_rejected (k : Nat) (f : Nat) :
    jsonScan f JsonMode.value (k + 1) (nestedArrays (k + 1)) = none := by
  cases f with
  | zero => rfl
  | succ f =>
    have e : nestedArrays (k + 1) = '{' :: '"' :: 'a' :: '"' :: ':' ::
        (List.replicate (k + 1) '[' ++ (List.replicate (k + 1) ']' ++ ['}'])) := by
      simp [nestedArrays]
    have hsk : skipSpace (nestedArrays (k + 1)) = '{' :: '"' :: 'a' :: '"' :: ':' ::
        (List.replicate (k + 1) '[' ++ (List.replicate (k + 1) ']' ++ ['}'])) := by
      rw [e]
      exact skipSpace_cons '{' _ (by decide)
    have hcl : closes '}' ('"' :: 'a' :: '"' :: ':' ::
        (List.replicate (k + 1) '[' ++ (List.replicate (k + 1) ']' ++ ['}']))) = none :=
      closes_other '}' '"' [] _ isSpaces_nil (by decide) (by decide)
    rw [jsonScan_value f (k + 1) _ _ _ hsk]
    simp only [beq_self_eq_true, if_true, Nat.succ_ne_zero, if_false, hcl, Nat.add_sub_cancel]
    cases f with
    | zero => rfl
    | succ f =>
      have h0 : skipSpace ('"' :: 'a' :: '"' :: ':' ::
          (List.replicate (k + 1) '[' ++ (List.replicate (k + 1) ']' ++ ['}'])))
          = '"' :: 'a' :: '"' :: ':' ::
          (List.replicate (k + 1) '[' ++ (List.replicate (k + 1) ']' ++ ['}'])) :=
        skipSpace_cons '"' _ (by decide)
      have hkey : StringBody ['a', '"'] :=
        StringBody.plain 'a' _ (by decide) (by decide) (by decide) StringBody.close
      have h1 := scanString_complete ['a', '"'] (':' ::
          (List.replicate (k + 1) '[' ++ (List.replicate (k + 1) ']' ++ ['}']))) hkey
      have h2 : skipSpace (':' ::
          (List.replicate (k + 1) '[' ++ (List.replicate (k + 1) ']' ++ ['}'])))
          = ':' :: (List.replicate (k + 1) '[' ++ (List.replicate (k + 1) ']' ++ ['}'])) :=
        skipSpace_cons ':' _ (by decide)
      rw [jsonScan, h0]
      simp only [beq_self_eq_true, if_true]
      rw [show scanString ('a' :: '"' :: ':' ::
          (List.replicate (k + 1) '[' ++ (List.replicate (k + 1) ']' ++ ['}'])))
          = some (':' :: (List.replicate (k + 1) '[' ++ (List.replicate (k + 1) ']' ++ ['}'])))
          from h1]
      simp only
      rw [h2]
      simp only [beq_self_eq_true, if_true]
      rw [jsonScan_no_room f k]

theorem nestedArrays_boundary :
    DecodesIntoMap (nestedArrays (maxNestingDepth - 1)) ∧
    ¬ DecodesIntoMap (nestedArrays maxNestingDepth) := by
  constructor
  · refine ⟨[], nestedArrays (maxNestingDepth - 1), [], by simp, isSpaces_nil, isSpaces_nil,
      Or.inr ⟨_, rfl, ?_⟩⟩
    · exact nestedArrays_decodes 9998
  · intro hd
    have hu := (unmarshalIntoMap_iff _).mpr hd
    unfold unmarshalIntoMap at hu
    have hsk : skipSpace (nestedArrays maxNestingDepth) = '{' :: '"' :: 'a' :: '"' :: ':' ::
        (List.replicate maxNestingDepth '[' ++ (List.replicate maxNestingDepth ']' ++ ['}'])) :=
      skipSpace_cons '{' _ (by decide)
    rw [hsk] at hu
    simp only [beq_self_eq_true, if_true] at hu
    rw [show jsonScan (2 * (nestedArrays maxNestingDepth).length + 2) JsonMode.value
        maxNestingDepth (nestedArrays maxNestingDepth) = none
        from nestedArrays_rejected 9999 _] at hu
    cases hu

/-! ## Claims about the checks -/

theorem assertPresentLoop_passed_iff (env : Env) (names : List Str) (i : Nat) :
    assertPresentLoop env names i = Outcome.passed ↔ ∀ n ∈ names, (env n).isSome = true := by
  induction names generalizing i with
  | nil => simp [assertPresentLoop]
  | cons n names ih =>
    rw [assertPresentLoop]
    cases hn : env n with
    | none => simp [hn]
    | some v => simp [hn, ih]

theorem assertPresentLoop_failed_iff (env : Env) (names : List Str) (i j e : Nat) :
    assertPresentLoop env names i = Outcome.failed j e ↔
      e = 0 ∧ ∃ pre n post, names = pre ++ n :: post ∧ j = i + pre.length ∧
        (∀ m ∈ pre, (env m).isSome = true) ∧ env n = none := by
  induction names generalizing i with
  | nil => simp [assertPresentLoop]
  | cons x names ih =>
    rw [assertPresentLoop]
    cases hx : env x with
    | none =>
      simp only [Outcome.failed.injEq]
      constructor
      · rintro ⟨rfl, rfl⟩
        exact ⟨rfl, [], x, names, rfl, by simp, by simp, hx⟩
      · rintro ⟨rfl, pre, n, post, e1, e2, hpre, hn⟩
        cases pre with
        | nil => simp [e2]
        | cons p pre =>
          injection e1 with e3 _
          have := hpre p (List.mem_cons_self _ _)
          rw [← e3, hx] at this
          cases this
    | some v =>
      simp only
      rw [ih]
      constructor
      · rintro ⟨rfl, pre, n, post, e1, e2, hpre, hn⟩
        refine ⟨rfl, x :: pre, n, post, by rw [e1]; rfl, by simp [e2]; omega, ?_, hn⟩
        intro m hm
        rcases List.mem_cons.mp hm with rfl | hm2
        · simp [hx]
        · exact hpre m hm2
      · rintro ⟨rfl, pre, n, post, e1, e2, hpre, hn⟩
        cases pre with
        | nil =>
          injection e1 with e3 _
          rw [e3, hn] at hx
          cases hx
        | cons p pre =>
          injection e1 with _ e4
          exact ⟨rfl, pre, n, post, e4, by simp at e2; omega,
            fun m hm => hpre m (List.mem_cons_of_mem _ hm), hn⟩

/-- C7: `assertPresent` passes if and only if every named variable is a key of the
snapshot (also when its value is the empty string); it fails exactly at the first named
variable that is not a key; and the snapshot is unchanged either way. -/
theorem assertPresent_spec (env : Env) (varNames : List Str) :
    ((assertPresent env varNames).2 = Outcome.passed ↔
      ∀ n ∈ varNames, (env n).isSome = true) ∧
    (∀ j e, (assertPresent env varNames).2 = Outcome.failed j e ↔
      e = 0 ∧ ∃ pre n post, varNames = pre ++ n :: post ∧ j = pre.length ∧
        (∀ m ∈ pre, (env m).isSome = true) ∧ env n = none) ∧
    (assertPresent env varNames).1 = env ∧
    (∀ k, (assertPresent (env.set k []) [k]).2 = Outcome.passed) := by
  refine ⟨assertPresentLoop_passed_iff env varNames 0, ?_, rfl, ?_⟩
  · intro j e
    have := assertPresentLoop_failed_iff env varNames 0 j e
    simpa using this
  · intro k
    simp [assertPresent, assertPresentLoop, Env.set]

theorem assertJsonParseableLoop_passed_iff (env : Env) (names : List Str) (i : Nat) :
    assertJsonParseableLoop env names i = Outcome.passed ↔
      ∀ n ∈ names, ∃ v, env n = some v ∧ DecodesIntoMap v := by
  induction names generalizing i with
  | nil => simp [assertJsonParseableLoop]
  | cons n names ih =>
    rw [assertJsonParseableLoop]
    cases hn : env n with
    | none => simp [hn]
    | some v =>
      by_cases hv : unmarshalIntoMap v = true
      · have hd := (unmarshalIntoMap_iff v).mp hv
        simp [hn, hv, ih, hd]
      · have hd : ¬ DecodesIntoMap v := fun h => hv ((unmarshalIntoMap_iff v).mpr h)
        simp [hn, hv, hd]

theorem decodesIntoMap_first (v : Str) (c : Char) (r : Str) (h : skipSpace v = c :: r)
    (h1 : c ≠ '{') (h2 : c ≠ 'n') : ¬ DecodesIntoMap v := by
  intro hd
  have hu := (unmarshalIntoMap_iff v).mpr hd
  unfold unmarshalIntoMap at hu
  rw [h] at hu
  have b1 : (c == '{') = false := by simpa using h1
  have b2 : (c == 'n') = false := by simpa using h2
  simp [b1, b2] at hu

/-- C6 (as stated, refuted): `[]` is a valid JSON array and `1` a valid JSON number, and
the named key is present, yet `assertJsonParseable` fails on the decoding expectation. -/
theorem assertJsonParseable_rejects_array_and_scalar :
    JsonText JsonMode.value 1 "[]".toList ∧
    JsonText JsonMode.value 0 "1".toList ∧
    (assertJsonParseable (Env.empty.set "VCAP_SERVICES".toList "[]".toList)
      ["VCAP_SERVICES".toList]).2 = Outcome.failed 0 1 ∧
    (assertJsonParseable (Env.empty.set "VCAP_SERVICES".toList "1".toList)
      ["VCAP_SERVICES".toList]).2 = Outcome.failed 0 1 :=
  ⟨JsonText.emptyArray 0 [] isSpaces_nil,
    JsonText.number 0 _ ⟨[], ['1'], [], [], [], 0, rfl, Or.inl rfl,
      IntegerPart.nonzero '1' [] (by decide) (by decide) isDigits_nil,
      FractionPart.absent, ExponentPart.absent,
      (float64Overflows_eq_false_iff _ _).mp (by decide!)⟩,
    by decide, by decide⟩

/-- C6 (amended): `assertJsonParseable` passes if and only if every named variable is a key
of the snapshot and its value decodes into a `map[string]interface{}`: between optional
whitespace it is the literal `null`, or a syntactically valid JSON object that nests arrays
and objects at most 10000 deep and whose numbers `strconv.ParseFloat` reads without a
range error. It fails on a missing key, fails for `not-json`, passes for
`{"application_name":"x"}`, fails for every text whose first character after whitespace
is neither `{` nor `n` (every JSON array, string, number, `true` and `false`), so for `[]`
and `1`, fails for the object `{"a":1e400}`, whose number is out of range, and, of the
objects holding nested arrays, accepts the one 10000 deep and rejects the one 10001
deep. -/
theorem assertJsonParseable_spec (env : Env) (varNames : List Str) :
    ((assertJsonParseable env varNames).2 = Outcome.passed ↔
      ∀ n ∈ varNames, ∃ v, env n = some v ∧ DecodesIntoMap v) ∧
    (∀ (v : Str) (c : Char) (r : Str), skipSpace v = c :: r → c ≠ '{' → c ≠ 'n' →
      ¬ DecodesIntoMap v) ∧
    (assertJsonParseable Env.empty ["VCAP_APPLICATION".toList]).2 = Outcome.failed 0 0 ∧
    (assertJsonParseable (Env.empty.set "VCAP_APPLICATION".toList "not-json".toList)
      ["VCAP_APPLICATION".toList]).2 = Outcome.failed 0 1 ∧
    (assertJsonParseable
      (Env.empty.set "VCAP_APPLICATION".toList "\x7b\"application_name\":\"x\"\x7d".toList)
      ["VCAP_APPLICATION".toList]).2 = Outcome.passed ∧
    (assertJsonParseable (Env.empty.set "VCAP_APPLICATION".toList "[]".toList)
      ["VCAP_APPLICATION".toList]).2 = Outcome.failed 0 1 ∧
    (assertJsonParseable (Env.empty.set "VCAP_APPLICATION".toList "1".toList)
      ["VCAP_APPLICATION".toList]).2 = Outcome.failed 0 1 ∧
    (assertJsonParseable
      (Env.empty.set "VCAP_APPLICATION".toList "\x7b\"a\":1e400\x7d".toList)
      ["VCAP_APPLICATION".toList]).2 = Outcome.failed 0 1 ∧
    DecodesIntoMap (nestedArrays (maxNestingDepth - 1)) ∧
    ¬ DecodesIntoMap (nestedArrays maxNestingDepth) :=
  ⟨assertJsonParseableLoop_passed_iff env varNames 0, decodesIntoMap_first,
    by decide, by decide, by decide, by decide, by decide, by decide!,
    nestedArrays_boundary.1, nestedArrays_boundary.2⟩

/-! ## Correctness of the derivative matcher -/

theorem matches_nothing_iff (x : Str) : Regex.Matches Regex.nothing x ↔ False :=
  ⟨fun h => (by cases h), False.elim⟩

theorem matches_empty_iff (x : Str) : Regex.Matches Regex.empty x ↔ x = [] :=
  ⟨fun h => (by cases h; rfl), fun h => h ▸ Regex.Matches.empty⟩

theorem matches_sym_iff (p : Char → Bool) (x : Str) :
    Regex.Matches (Regex.sym p) x ↔ ∃ c, x = [c] ∧ p c = true :=
  ⟨fun h => (by cases h; exact ⟨_, rfl, by assumption⟩),
    fun ⟨c, e, hc⟩ => e ▸ Regex.Matches.sym p c hc⟩

theorem matches_cat_iff (a b : Regex) (x : Str) :
    Regex.Matches (Regex.cat a b) x ↔
      ∃ s t, x = s ++ t ∧ Regex.Matches a s ∧ Regex.Matches b t :=
  ⟨fun h => (by cases h; exact ⟨_, _, rfl, by assumption, by assumption⟩),
    fun ⟨s, t, e, h1, h2⟩ => e ▸ Regex.Matches.cat a b s t h1 h2⟩

theorem matches_alt_iff (a b : Regex) (x : Str) :
    Regex.Matches (Regex.alt a b) x ↔ Regex.Matches a x ∨ Regex.Matches b x :=
  ⟨fun h => (by
      cases h with
      | altLeft _ _ _ h1 => exact Or.inl h1
      | altRight _ _ _ h1 => exact Or.inr h1),
    fun h => h.elim (Regex.Matches.altLeft a b x) (Regex.Matches.altRight a b x)⟩

theorem matches_star_cons (r : Regex) (y : Str) (h : Regex.Matches r y) :
    ∀ (a : Regex) (c : Char) (x : Str), r = Regex.star a → y = c :: x →
      ∃ s t, x = s ++ t ∧ Regex.Matches a (c :: s) ∧ Regex.Matches (Regex.star a) t := by
  induction h with
  | empty => intro a c x e; cases e
  | sym p d hd => intro a c x e; cases e
  | cat a1 b1 s t _ _ _ _ => intro a c x e; cases e
  | altLeft a1 b1 s _ _ => intro a c x e; cases e
  | altRight a1 b1 s _ _ => intro a c x e; cases e
  | starNil a1 => intro a c x _ e; cases e
  | starCons a1 s t h1 h2 _ ih2 =>
    intro a c x e ey
    injection e with e
    subst e
    cases s with
    | nil => exact ih2 a1 c x rfl ey
    | cons d s =>
      injection ey with e1 e2
      subst e1
      exact ⟨s, t, e2.symm, h1, h2⟩

theorem nullable_iff (r : Regex) : r.nullable = true ↔ Regex.Matches r [] := by
  induction r with
  | nothing => simp [Regex.nullable, matches_nothing_iff]
  | empty => simp [Regex.nullable, matches_empty_iff]
  | sym p => simp [Regex.nullable, matches_sym_iff]
  | cat a b iha ihb =>
    simp only [Regex.nullable, Bool.and_eq_true, iha, ihb, matches_cat_iff]
    constructor
    · rintro ⟨h1, h2⟩
      exact ⟨[], [], rfl, h1, h2⟩
    · rintro ⟨s, t, e, h1, h2⟩
      have hs : s = [] := (List.append_eq_nil.mp e.symm).1
      have ht : t = [] := (List.append_eq_nil.mp e.symm).2
      subst hs ht
      exact ⟨h1, h2⟩
  | alt a b iha ihb => simp [Regex.nullable, iha, ihb, matches_alt_iff]
  | star a _ => simp [Regex.nullable, Regex.Matches.starNil]

theorem deriv_iff (r : Regex) (c : Char) (x : Str) :
    Regex.Matches (r.deriv c) x ↔ Regex.Matches r (c :: x) := by
  induction r generalizing x with
  | nothing => simp [Regex.deriv, matches_nothing_iff]
  | empty => simp [Regex.deriv, matches_nothing_iff, matches_empty_iff]
  | sym p =>
    rw [matches_sym_iff]
    by_cases hp : p c = true
    · rw [Regex.deriv, if_pos hp, matches_empty_iff]
      constructor
      · intro e
        exact ⟨c, by rw [e], hp⟩
      · rintro ⟨d, e, _⟩
        injection e with _ e2
    · rw [Regex.deriv, if_neg hp, matches_nothing_iff]
      constructor
      · exact False.elim
      · rintro ⟨d, e, hd⟩
        injection e with e1 _
        exact hp (e1 ▸ hd)
  | alt a b iha ihb => simp [Regex.deriv, matches_alt_iff, iha, ihb]
  | star a iha =>
    simp only [Regex.deriv, matches_cat_iff, iha]
    constructor
    · rintro ⟨s, t, e, h1, h2⟩
      rw [e]
      exact Regex.Matches.starCons a (c :: s) t h1 h2
    · intro h
      exact matches_star_cons _ _ h a c x rfl rfl
  | cat a b iha ihb =>
    have key : Regex.Matches (Regex.cat a b) (c :: x) ↔
        (∃ s t, x = s ++ t ∧ Regex.Matches a (c :: s) ∧ Regex.Matches b t) ∨
        (Regex.Matches a [] ∧ Regex.Matches b (c :: x)) := by
      rw [matches_cat_iff]
      constructor
      · rintro ⟨s, t, e, h1, h2⟩
        cases s with
        | nil => exact Or.inr ⟨h1, by rw [e]; exact h2⟩
        | cons d s =>
          injection e with e1 e2
          subst e1
          exact Or.inl ⟨s, t, e2, h1, h2⟩
      · rintro (⟨s, t, e, h1, h2⟩ | ⟨h1, h2⟩)
        · exact ⟨c :: s, t, by rw [e]; rfl, h1, h2⟩
        · exact ⟨[], c :: x, rfl, h1, h2⟩
    have step : Regex.Matches (Regex.cat (a.deriv c) b) x ↔
        ∃ s t, x = s ++ t ∧ Regex.Matches a (c :: s) ∧ Regex.Matches b t := by
      rw [matches_cat_iff]
      constructor
      · rintro ⟨s, t, e, h1, h2⟩
        exact ⟨s, t, e, (iha s).mp h1, h2⟩
      · rintro ⟨s, t, e, h1, h2⟩
        exact ⟨s, t, e, (iha s).mpr h1, h2⟩
    rw [key]
    by_cases hn : a.nullable = true
    · rw [Regex.deriv, if_pos hn, matches_alt_iff, step, ihb]
      have hnil := (nullable_iff a).mp hn
      constructor
      · rintro (h | h)
        · exact Or.inl h
        · exact Or.inr ⟨hnil, h⟩
      · rintro (h | ⟨_, h⟩)
        · exact Or.inl h
        · exact Or.inr h
    · rw [Regex.deriv, if_neg hn, step]
      have hn2 : ¬ Regex.Matches a [] := fun h => hn ((nullable_iff a).mpr h)
      constructor
      · exact Or.inl
      · rintro (h | ⟨h, _⟩)
        · exact h
        · exact absurd h hn2

theorem fullMatch_iff (r : Regex) (x : Str) : r.fullMatch x = true ↔ Regex.Matches r x := by
  induction x generalizing r with
  | nil => exact nullable_iff r
  | cons c x ih => rw [Regex.fullMatch, ih, deriv_iff]

theorem matches_star_anyChar (x : Str) : Regex.Matches (Regex.star Regex.anyChar) x := by
  induction x with
  | nil => exact Regex.Matches.starNil _
  | cons c x ih => exact Regex.Matches.starCons _ [c] x (Regex.Matches.sym _ c rfl) ih

/-- The meaning of `MatchString`: some substring of the text matches the expression. -/
theorem matchString_iff (r : Regex) (x : Str) :
    matchString r x = true ↔ ∃ pre mid post, x = pre ++ (mid ++ post) ∧ Regex.Matches r mid := by
  unfold matchString
  rw [fullMatch_iff, matches_cat_iff]
  constructor
  · rintro ⟨pre, t, e, _, h2⟩
    obtain ⟨mid, post, e2, h3, _⟩ := (matches_cat_iff _ _ _).mp h2
    exact ⟨pre, mid, post, by rw [e, e2], h3⟩
  · rintro ⟨pre, mid, post, e, h⟩
    exact ⟨pre, mid ++ post, e, matches_star_anyChar pre,
      (matches_cat_iff _ _ _).mpr ⟨mid, post, rfl, h, matches_star_anyChar post⟩⟩

/-! ## The language of the task-log pattern -/

theorem matches_lit_iff (w x : Str) : Regex.Matches (Regex.lit w) x ↔ x = w := by
  induction w generalizing x with
  | nil => exact matches_empty_iff x
  | cons c w ih =>
    rw [Regex.lit, matches_cat_iff]
    constructor
    · rintro ⟨s, t, e, h1, h2⟩
      obtain ⟨d, e1, hd⟩ := (matches_sym_iff _ _).mp h1
      have hdc : d = c := by simpa using hd
      rw [e, e1, (ih t).mp h2, hdc]
      rfl
    · intro e
      exact ⟨[c], w, e, Regex.Matches.sym _ c (by simp), (ih w).mpr rfl⟩

theorem matches_star_forall (r : Regex) (y : Str) (h : Regex.Matches r y) :
    ∀ p : Char → Bool, r = Regex.star (Regex.sym p) → ∀ c ∈ y, p c = true := by
  induction h with
  | empty => intro p e; cases e
  | sym q d hd => intro p e; cases e
  | cat a1 b1 s t _ _ _ _ => intro p e; cases e
  | altLeft a1 b1 s _ _ => intro p e; cases e
  | altRight a1 b1 s _ _ => intro p e; cases e
  | starNil a1 => intro p _ c hc; cases hc
  | starCons a1 s t h1 _ _ ih2 =>
    intro p e c hc
    injection e with e
    subst e
    obtain ⟨d, e1, hd⟩ := (matches_sym_iff _ _).mp h1
    rcases List.mem_append.mp hc with h3 | h3
    · rw [e1] at h3
      rw [List.mem_singleton.mp h3]
      exact hd
    · exact ih2 p rfl c h3

theorem matches_star_sym_iff (p : Char → Bool) (x : Str) :
    Regex.Matches (Regex.star (Regex.sym p)) x ↔ ∀ c ∈ x, p c = true := by
  constructor
  · intro h
    exact matches_star_forall _ _ h p rfl
  · intro h
    induction x with
    | nil => exact Regex.Matches.starNil _
    | cons c x ih =>
      exact Regex.Matches.starCons _ [c] x
        (Regex.Matches.sym p c (h c (List.mem_cons_self _ _)))
        (ih (fun d hd => h d (List.mem_cons_of_mem _ hd)))

theorem matches_plus_sym_iff (p : Char → Bool) (x : Str) :
    Regex.Matches (Regex.plus (Regex.sym p)) x ↔ x ≠ [] ∧ ∀ c ∈ x, p c = true := by
  rw [Regex.plus, matches_cat_iff]
  constructor
  · rintro ⟨s, t, e, h1, h2⟩
    obtain ⟨d, e1, hd⟩ := (matches_sym_iff _ _).mp h1
    subst e1
    subst e
    refine ⟨by simp, ?_⟩
    intro c hc
    rcases List.mem_cons.mp hc with rfl | h3
    · exact hd
    · exact (matches_star_sym_iff p t).mp h2 c h3
  · rintro ⟨hne, h⟩
    cases x with
    | nil => exact absurd rfl hne
    | cons c x =>
      exact ⟨[c], x, rfl, Regex.Matches.sym p c (h c (List.mem_cons_self _ _)),
        (matches_star_sym_iff p x).mpr (fun d hd => h d (List.mem_cons_of_mem _ hd))⟩

theorem ptn_matches_iff (x : Str) :
    Regex.Matches ptn x ↔
      ∃ ds ws1 ws2 mid : Str,
        x = "[APP/TASK/get-env/".toList ++ (ds ++ (']' :: (ws1 ++ ("OUT".toList ++
          (ws2 ++ (mid ++ ['=']))))))  ∧
        (ds ≠ [] ∧ ∀ c ∈ ds, isDigitClass c = true) ∧
        (ws1 ≠ [] ∧ ∀ c ∈ ws1, isSpaceClass c = true) ∧
        (ws2 ≠ [] ∧ ∀ c ∈ ws2, isSpaceClass c = true) ∧
        (∀ c ∈ mid, isDotClass c = true) := by
  unfold ptn
  constructor
  · intro h
    obtain ⟨s1, t1, e1, h1, h⟩ := (matches_cat_iff _ _ _).mp h
    obtain ⟨s2, t2, e2, h2, h⟩ := (matches_cat_iff _ _ _).mp h
    obtain ⟨s3, t3, e3, h3, h⟩ := (matches_cat_iff _ _ _).mp h
    obtain ⟨ds, t4, e4, h4, h⟩ := (matches_cat_iff _ _ _).mp h
    obtain ⟨s5, t5, e5, h5, h⟩ := (matches_cat_iff _ _ _).mp h
    obtain ⟨ws1, t6, e6, h6, h⟩ := (matches_cat_iff _ _ _).mp h
    obtain ⟨s7, t7, e7, h7, h⟩ := (matches_cat_iff _ _ _).mp h
    obtain ⟨ws2, t8, e8, h8, h⟩ := (matches_cat_iff _ _ _).mp h
    obtain ⟨mid, t9, e9, h9, h10⟩ := (matches_cat_iff _ _ _).mp h
    rw [matches_lit_iff] at h1 h2 h3 h5 h7 h10
    refine ⟨ds, ws1, ws2, mid, ?_, (matches_plus_sym_iff _ _).mp h4,
      (matches_plus_sym_iff _ _).mp h6, (matches_plus_sym_iff _ _).mp h8,
      (matches_star_sym_iff _ _).mp h9⟩
    rw [e1, e2, e3, e4, e5, e6, e7, e8, e9, h1, h2, h3, h5, h7, h10]
    rfl
  · rintro ⟨ds, ws1, ws2, mid, e, hd, hw1, hw2, hm⟩
    have e0 : x = "[APP/TASK/".toList ++ (taskName ++ ("/".toList ++ (ds ++ ("]".toList ++
        (ws1 ++ ("OUT".toList ++ (ws2 ++ (mid ++ "=".toList)))))))) := by
      rw [e]
      rfl
    rw [e0]
    refine Regex.Matches.cat _ _ _ _ ((matches_lit_iff _ _).mpr rfl) ?_
    refine Regex.Matches.cat _ _ _ _ ((matches_lit_iff _ _).mpr rfl) ?_
    refine Regex.Matches.cat _ _ _ _ ((matches_lit_iff _ _).mpr rfl) ?_
    refine Regex.Matches.cat _ _ _ _ ((matches_plus_sym_iff _ _).mpr hd) ?_
    refine Regex.Matches.cat _ _ _ _ ((matches_lit_iff _ _).mpr rfl) ?_
    refine Regex.Matches.cat _ _ _ _ ((matches_plus_sym_iff _ _).mpr hw1) ?_
    refine Regex.Matches.cat _ _ _ _ ((matches_lit_iff _ _).mpr rfl) ?_
    refine Regex.Matches.cat _ _ _ _ ((matches_plus_sym_iff _ _).mpr hw2) ?_
    exact Regex.Matches.cat _ _ _ _ ((matches_star_sym_iff _ _).mpr hm)
      ((matches_lit_iff _ _).mpr rfl)

theorem matchString_ptn_iff (line : Str) :
    matchString ptn line = true ↔ TaskOutputLine line := by
  rw [matchString_iff]
  unfold TaskOutputLine
  constructor
  · rintro ⟨pre, m, post, e, h⟩
    obtain ⟨ds, ws1, ws2, mid, e2, hd, hw1, hw2, hm⟩ := (ptn_matches_iff m).mp h
    refine ⟨pre, ds, ws1, ws2, mid, post, ?_, hd.1, hd.2, hw1.1, hw1.2, hw2.1, hw2.2, ?_⟩
    · rw [e, e2]
      simp
    · intro c hc
      simpa [isDotClass] using hm c hc
  · rintro ⟨pre, ds, ws1, ws2, mid, post, e, hd1, hd2, hw11, hw12, hw21, hw22, hm⟩
    refine ⟨pre, _, post, ?_, (ptn_matches_iff _).mpr
      ⟨ds, ws1, ws2, mid, rfl, ⟨hd1, hd2⟩, ⟨hw11, hw12⟩, ⟨hw21, hw22⟩, ?_⟩⟩
    · rw [e]
      simp
    · intro c hc
      simpa [isDotClass] using hm c hc

theorem finalLines_eq_filter (lines : List Str) :
    finalLines lines = lines.filter (fun l => matchString ptn l) := by
  induction lines with
  | nil => rfl
  | cons l lines ih =>
    rw [finalLines, List.filter_cons, ih]

theorem contains_of_starts (s sub : Str) (h : sub <+: s) : contains s sub = true := by
  cases s with
  | nil =>
    have : sub = [] := List.prefix_nil.mp h
    simp [contains, this]
  | cons c s =>
    rw [contains]
    simp [List.isPrefixOf_iff_prefix.mpr h]

theorem contains_append (pre sub post : Str) : contains (pre ++ (sub ++ post)) sub = true := by
  induction pre with
  | nil => exact contains_of_starts _ _ (List.prefix_append _ _)
  | cons c pre ih =>
    rw [List.cons_append, contains, ih]
    simp

/-! ## Claims about the task-log filter -/

/-- C8 (as stated, refuted): a line of another source channel, `[APP/PROC/WEB/0]`, whose
message text itself holds the task pattern is retained by the filter. -/
theorem finalLines_retains_other_channel :
    List.isPrefixOf "[APP/PROC/WEB/0] OUT ".toList
      "[APP/PROC/WEB/0] OUT [APP/TASK/get-env/0] OUT LANG=other".toList = true ∧
    finalLines ["[APP/PROC/WEB/0] OUT [APP/TASK/get-env/0] OUT LANG=other".toList] =
      ["[APP/PROC/WEB/0] OUT [APP/TASK/get-env/0] OUT LANG=other".toList] := by
  decide

/-- C8 (amended): the task-log filter returns, in their original order, exactly the lines
that contain `[APP/TASK/get-env/`, one or more digits, `]`, one or more whitespace
characters, `OUT`, one or more whitespace characters and a later `=` on the same line; on
the two example lines it keeps only the first; and every line it keeps contains the text
`[APP/TASK/get-env/` (anywhere in the line, not necessarily as its channel tag). -/
theorem finalLines_spec (lines : List Str) :
    finalLines lines = lines.filter (fun l => matchString ptn l) ∧
    (∀ l, matchString ptn l = true ↔ TaskOutputLine l) ∧
    finalLines ["[APP/TASK/get-env/0] OUT LANG=en_US.UTF-8".toList,
      "[APP/PROC/WEB/0] OUT LANG=other".toList] =
      ["[APP/TASK/get-env/0] OUT LANG=en_US.UTF-8".toList] ∧
    (∀ l ∈ finalLines lines, contains l "[APP/TASK/get-env/".toList = true) := by
  refine ⟨finalLines_eq_filter lines, matchString_ptn_iff, by decide, ?_⟩
  intro l hl
  rw [finalLines_eq_filter, List.mem_filter] at hl
  obtain ⟨pre, ds, ws1, ws2, mid, post, e, _⟩ := (matchString_ptn_iff l).mp hl.2
  rw [e]
  exact contains_append _ _ _

end Apps
